import Mathlib

/-
Verification of the Cosmos rich-text core: the operational delta model,
the applier (processOperations), the transaction builder, the selection
remapper (selectionFromTransaction) and the document facade (Text).

Strings are modelled as lists of UTF-16 code units (List Nat), matching
the source convention that Text lengths count code units.  JavaScript
numbers that can go negative (cursors, retain and delete counts passed
through the raw apply path) are modelled as Int.  The grapheme segmenter
(module Glyphs, not part of the core) is taken as a parameter.
-/

namespace Cosmos

/-- A string as its list of UTF-16 code units. -/
abbrev Str := List Nat

/-- Code units of a Lean string literal, used to build concrete examples. -/
def strU (s : String) : Str := s.data.map Char.toNat

/-- BlockType from Operation.ts: the closed tag set of renderable blocks. -/
inductive BlockType where
  | paragraph
  | blockquote
  | unorderedList
  | unordered
  | orderedList
  | ordered
deriving DecidableEq, Repr

/-- LineStyle values allowed in LineOptions of Attributes.ts. -/
inductive LineStyle where
  | dotted | dashed | solid | double | groove | ridge | inset | outset
deriving DecidableEq, Repr

/-- Value of the underline and strikethrough keys: a boolean or LineOptions. -/
inductive ULVal where
  | b (x : Bool)
  | opts (color : Option Str) (style : Option LineStyle)
deriving DecidableEq, Repr

/-- Value of the verticalAlign key. -/
inductive VAlign where
  | baseline | super | sub
deriving DecidableEq, Repr

/-- Value of the align key. -/
inductive HAlign where
  | left | center | right | justify
deriving DecidableEq, Repr

/-- Attributes from Attributes.ts: a record over the closed key set, each
key individually optional.  A key that is absent in the JavaScript object
is a none field here; structural equality is record equality. -/
structure Attributes where
  fontSize : Option Str := none
  fontFamily : Option Str := none
  fontWeight : Option Str := none
  fontStyle : Option Str := none
  lineHeight : Option Str := none
  color : Option Str := none
  bold : Option Bool := none
  italic : Option Bool := none
  underline : Option ULVal := none
  strikethrough : Option ULVal := none
  verticalAlign : Option VAlign := none
  align : Option HAlign := none
deriving DecidableEq, Repr

/-- Object.assign of two attribute maps: keys present in the overlay win,
keys absent in the overlay keep the value of the base.  This models
Object.assign(clone(base), overlay) from the applier. -/
def Attributes.assign (base ov : Attributes) : Attributes where
  fontSize := ov.fontSize <|> base.fontSize
  fontFamily := ov.fontFamily <|> base.fontFamily
  fontWeight := ov.fontWeight <|> base.fontWeight
  fontStyle := ov.fontStyle <|> base.fontStyle
  lineHeight := ov.lineHeight <|> base.lineHeight
  color := ov.color <|> base.color
  bold := ov.bold <|> base.bold
  italic := ov.italic <|> base.italic
  underline := ov.underline <|> base.underline
  strikethrough := ov.strikethrough <|> base.strikethrough
  verticalAlign := ov.verticalAlign <|> base.verticalAlign
  align := ov.align <|> base.align

/-- DeltaType from Operation.ts: payload of an entry, a string or a block. -/
inductive DeltaType where
  | str (s : Str)
  | block (b : BlockType)
deriving DecidableEq, Repr

/-- Delta entry: payload plus attributes.  The source stores a length
field set by createDeltaText and createDeltaBlock to the code-unit length
of the payload (1 for blocks); every construction in the core goes
through those constructors, so the length is computed here. -/
structure Delta where
  insert : DeltaType
  attributes : Attributes
deriving DecidableEq, Repr

/-- Length of a delta entry: code units for text, 1 for a block. -/
def Delta.len : Delta → Nat
  | ⟨.str s, _⟩ => s.length
  | ⟨.block _, _⟩ => 1

/-- Total length of a delta sequence (Text.length in the source). -/
def sumLen (l : List Delta) : Nat := (l.map Delta.len).sum

/-- Operation from Operation.ts: the tagged sum the applier dispatches on.
An insert operation is itself a Delta value; retain and swap carry an
optional attribute map (undefined in JavaScript is none here). -/
inductive Operation where
  | ins (d : Delta)
  | retain (n : Int) (attrs : Option Attributes)
  | delete (n : Int)
  | swap (p : DeltaType) (attrs : Option Attributes)
deriving DecidableEq, Repr

/-- JavaScript s.slice(0, k) on a code-unit list: a negative k counts from
the end of the string. -/
def jsTake (s : Str) (k : Int) : Str :=
  if k < 0 then s.take ((s.length : Int) + k).toNat else s.take k.toNat

/-- JavaScript s.slice(k) on a code-unit list: a negative k counts from
the end of the string. -/
def jsDropFrom (s : Str) (k : Int) : Str :=
  if k < 0 then s.drop ((s.length : Int) + k).toNat else s.drop k.toNat

/-- Replace the entry at index i by the given entries: the splice pattern
splice(i, 1, a) possibly followed by insertions at i+1, i+2. -/
def spliceReplace (l : List Delta) (i : Nat) (xs : List Delta) : List Delta :=
  l.take i ++ xs ++ l.drop (i + 1)

/-- Remove the entry at index i: splice(i, 1). -/
def spliceRemove (l : List Delta) (i : Nat) : List Delta :=
  l.take i ++ l.drop (i + 1)

/-- Loop state of processOperations: cursor and dPos are positions in
code units, i indexes the delta list, q indexes the operation list,
anchor is the format-span anchor.  The operation list is part of the
state because the delete branch rewrites the current operation. -/
structure PState where
  cursor : Int
  i : Nat
  dPos : Int
  q : Nat
  anchor : Int
  ops : List Operation
  delta : List Delta
deriving DecidableEq, Repr

/-- Result of one iteration of the applier loop: either a next state or
the break from the delete branch, which ends the loop at once. -/
inductive StepOut where
  | next (s : PState)
  | stop (delta : List Delta)
deriving Repr

/-- The retain-with-attributes branch of the applier loop, after the
anchor capture: walks the delta entry under i relative to the format span
from anchor to cursor, splitting and merging attributes as the source
does. -/
def pstepRetainA (s : PState) (a : Attributes) : StepOut :=
  match s.delta.get? s.i with
  | none => .next { s with q := s.q + 1, anchor := 0 }
  | some d =>
    let dLength : Int := d.len
    if s.anchor ≥ s.dPos + dLength then
      .next { s with dPos := s.dPos + dLength, i := s.i + 1 }
    else if s.anchor > s.dPos then
      let s' :=
        match d.insert with
        | .str str0 =>
          let split := s.anchor - s.dPos
          let nd := spliceReplace s.delta s.i
            [⟨.str (jsTake str0 split), d.attributes⟩,
             ⟨.str (jsDropFrom str0 split), d.attributes⟩]
          { s with delta := nd }
        | .block _ => s
      .next { s' with i := s'.i + 1, dPos := s.anchor }
    else if s.cursor ≥ s.dPos + dLength then
      let nd := spliceReplace s.delta s.i [⟨d.insert, Attributes.assign d.attributes a⟩]
      .next { s with delta := nd, dPos := s.dPos + dLength, i := s.i + 1 }
    else if s.cursor > s.dPos then
      let s' :=
        match d.insert with
        | .str str0 =>
          let split := s.cursor - s.dPos
          let nd := spliceReplace s.delta s.i
            [⟨.str (jsTake str0 split), Attributes.assign d.attributes a⟩,
             ⟨.str (jsDropFrom str0 split), d.attributes⟩]
          { s with delta := nd, dPos := s.cursor }
        | .block _ => s
      .next { s' with q := s'.q + 1, i := s'.i + 1, anchor := 0 }
    else
      .next { s with q := s.q + 1, i := s.i + 1, anchor := 0 }

/-- The swap branch of the applier loop. -/
def pstepSwap (s : PState) (p : DeltaType) (attrs : Option Attributes) : StepOut :=
  let od : Delta := ⟨p, attrs.getD {}⟩
  let opLength : Int := od.len
  match s.delta.get? s.i with
  | none =>
    .next { s with delta := s.delta ++ [od], q := s.q + 1, i := s.i + 1, cursor := opLength, dPos := opLength }
  | some d =>
    let dLength : Int := d.len
    if s.cursor ≥ s.dPos + dLength then
      .next { s with dPos := s.dPos + dLength, i := s.i + 1 }
    else if s.cursor = s.dPos then
      match d.insert with
      | .str str0 =>
        let nd := spliceReplace s.delta s.i [od, ⟨.str (jsDropFrom str0 1), d.attributes⟩]
        .next { s with delta := nd, q := s.q + 1, i := s.i + 1 }
      | .block _ =>
        let nd := spliceReplace s.delta s.i [od]
        .next { s with delta := nd, dPos := s.dPos + opLength, q := s.q + 1, i := s.i + 1 }
    else if s.cursor > s.dPos then
      match d.insert with
      | .str str0 =>
        let split := s.cursor - s.dPos
        let nd := spliceReplace s.delta s.i
          [od, ⟨.str (jsDropFrom str0 (split + 1)), d.attributes⟩]
        .next { s with delta := nd, q := s.q + 1, i := s.i + 1, dPos := s.cursor }
      | .block _ => .next s
    else .next s

/-- The delete branch of the applier loop; the only branch that can end
the loop (break) or rewrite the current operation. -/
def pstepDelete (s : PState) (n : Int) : StepOut :=
  match s.delta.get? s.i with
  | none => .stop s.delta
  | some d =>
    let dLength : Int := d.len
    if s.cursor ≥ s.dPos + dLength then
      .next { s with dPos := s.dPos + dLength, i := s.i + 1 }
    else
      match d.insert with
      | .str str0 =>
        if s.cursor = s.dPos then
          if dLength > n then
            let nd := spliceReplace s.delta s.i [⟨.str (jsDropFrom str0 n), d.attributes⟩]
            .next { s with delta := nd, q := s.q + 1 }
          else if dLength = n then
            .next { s with delta := spliceRemove s.delta s.i, q := s.q + 1 }
          else
            let no := s.ops.set s.q (.delete (n - dLength))
            .next { s with delta := spliceRemove s.delta s.i, ops := no }
        else if s.cursor > s.dPos then
          let split := s.cursor - s.dPos
          let nd := spliceReplace s.delta s.i
            [⟨.str (jsTake str0 split), d.attributes⟩,
             ⟨.str (jsDropFrom str0 split), d.attributes⟩]
          .next { s with delta := nd, dPos := s.cursor, i := s.i + 1 }
        else .next s
      | .block _ =>
        let s1 := { s with delta := spliceRemove s.delta s.i, dPos := s.cursor }
        if 1 < n then .next { s1 with ops := s1.ops.set s1.q (.delete (n - 1)) }
        else .next { s1 with q := s1.q + 1 }

/-- The insert branch of the applier loop. -/
def pstepIns (s : PState) (d0 : Delta) : StepOut :=
  let opLength : Int := d0.len
  match s.delta.get? s.i with
  | none =>
    .next { s with delta := s.delta ++ [d0], q := s.q + 1, i := s.i + 1, cursor := opLength, dPos := opLength }
  | some d =>
    let dLength : Int := d.len
    if s.cursor ≥ s.dPos + dLength then
      .next { s with dPos := s.dPos + dLength, i := s.i + 1 }
    else if s.cursor = s.dPos then
      let nd := spliceReplace s.delta s.i [d0, d]
      .next { s with delta := nd, q := s.q + 1, i := s.i + 1, cursor := s.dPos + opLength, dPos := s.dPos + opLength }
    else if s.cursor > s.dPos then
      match d.insert with
      | .str str0 =>
        let split := s.cursor - s.dPos
        let nd := spliceReplace s.delta s.i
          [⟨.str (jsTake str0 split), d.attributes⟩, d0,
           ⟨.str (jsDropFrom str0 split), d.attributes⟩]
        .next { s with delta := nd, q := s.q + 1, i := s.i + 1, dPos := s.cursor }
      | .block _ => .next s
    else .next s

/-- One iteration of the processOperations while loop, dispatching on the
current operation exactly as the source does.  A retain with attributes
first performs the anchor capture of the source: when the anchor is 0 it
is set to the cursor and the cursor advances by the retained count. -/
def pstep (s : PState) (op : Operation) : StepOut :=
  match op with
  | .retain n attrs =>
    match attrs with
    | none => .next { s with cursor := s.cursor + n, q := s.q + 1, anchor := 0 }
    | some a =>
      pstepRetainA
        (if s.anchor = 0 then { s with anchor := s.cursor, cursor := s.cursor + n } else s) a
  | .swap p attrs => pstepSwap s p attrs
  | .delete n => pstepDelete s n
  | .ins d0 => pstepIns s d0

/-- The processOperations while loop, with fuel because the source loop
is not structurally terminating (on adversarial input some branches leave
the state unchanged).  Returns none when the fuel runs out, otherwise the
final delta together with a flag recording whether the loop ended through
the break of the delete branch. -/
def processLoop : Nat → PState → Option (Bool × List Delta)
  | 0, _ => none
  | fuel + 1, s =>
    match s.ops.get? s.q with
    | none => some (false, s.delta)
    | some op =>
      match pstep s op with
      | .stop d => some (true, d)
      | .next s' => processLoop fuel s'

/-- Initial state of processOperations. -/
def initState (ops : List Operation) (delta : List Delta) : PState :=
  ⟨0, 0, 0, 0, 0, ops, delta⟩

/-- processOperations of Attributes.ts.  The commit wrapper copies the
operation list before calling it; in this pure model the copy is the
identity, so commit and processOperations coincide. -/
def processOperations (fuel : Nat) (ops : List Operation) (delta : List Delta) :
    Option (Bool × List Delta) :=
  processLoop fuel (initState ops delta)

/-- XSelection restricted to the x coordinates of its two points. -/
structure XSelection where
  startX : Int
  endX : Int
deriving DecidableEq, Repr

/-- isBackwards from Selection.ts. -/
def isBackwards (s : XSelection) : Bool := s.startX > s.endX

/-- fromX from Selection.ts: the smaller endpoint. -/
def fromX (s : XSelection) : Int := if isBackwards s then s.endX else s.startX

/-- toX from Selection.ts: the larger endpoint. -/
def toX (s : XSelection) : Int := if isBackwards s then s.startX else s.endX

/-- distanceX from Selection.ts. -/
def distanceX (s : XSelection) : Int := toX s - fromX s

/-- lengthX from Selection.ts. -/
def lengthX (s : XSelection) : Int := distanceX s + 1

/-- isCollapsedX from Selection.ts. -/
def isCollapsedX (s : XSelection) : Bool := s.startX = s.endX

/-- The remap loop of selectionFromTransaction: walks the operation list
updating a running cursor and the position being remapped, and stops as
soon as the cursor passes the position.  Swap operations match none of
the three tag tests in the source and are neutral. -/
def remapLoop : List Operation → Int → Int → Int
  | [], _, pos => pos
  | .retain n _ :: rest, cursor, pos =>
    if cursor + n > pos then pos else remapLoop rest (cursor + n) pos
  | .delete n :: rest, cursor, pos =>
    let p := if pos > cursor then pos - n else pos
    if cursor > p then p else remapLoop rest cursor p
  | .ins d :: rest, cursor, pos =>
    if pos ≥ cursor then
      (if cursor + (d.len : Int) > pos + (d.len : Int) then pos + (d.len : Int)
       else remapLoop rest (cursor + (d.len : Int)) (pos + (d.len : Int)))
    else if cursor > pos then pos else remapLoop rest cursor pos
  | .swap _ _ :: rest, cursor, pos =>
    if cursor > pos then pos else remapLoop rest cursor pos

/-- selectionFromTransaction of Attributes.ts, taking the fields of the
transaction it reads: its operation list and its hasBlockAtFront flag. -/
def selectionFromTransaction (ops : List Operation) (hbf : Bool) (position : Int) : Int :=
  let p := remapLoop ops 0 position
  if p = 0 ∧ hbf then 1 else p

/-- A grapheme segmenter: the Glyphs module is consumed by the core as a
pure function from a string to its list of graphemes. -/
abbrev GlyphFn := Str → List Str

/-- Modelled from the spec: the Glyphs module (the routine graphemes(s),
an external collaborator not part of the core source) splits a string
into user-perceived characters; so the concatenation of the pieces is the
original string and no piece is empty. -/
def GlyphsOk (g : GlyphFn) : Prop :=
  (∀ s : Str, (g s).flatten = s) ∧ ∀ s : Str, ∀ t ∈ g s, t ≠ []

/-- The inner glyph loop of fetchAt: scan the graphemes of one text run,
returning the grapheme whose last code unit sits at the requested
position, together with the advanced position counter. -/
def scanGlyphs (at0 : Int) : Int → List Str → Option Str × Int
  | pos, [] => (none, pos)
  | pos, t :: ts =>
    if pos + (t.length : Int) - 1 = at0 then (some t, pos)
    else scanGlyphs at0 (pos + t.length) ts

/-- fetchAt of Attributes.ts with its accumulated position made explicit:
skip a text run whenever pos + length < at, otherwise walk its graphemes;
return a block exactly when the position counter equals at. -/
def fetchAtAux (g : GlyphFn) (at0 : Int) : Int → List Delta → Option DeltaType
  | _, [] => none
  | pos, d :: rest =>
    match d.insert with
    | .str s =>
      if pos + (s.length : Int) < at0 then fetchAtAux g at0 (pos + s.length) rest
      else
        match scanGlyphs at0 pos (g s) with
        | (some t, _) => some (.str t)
        | (none, pos') => fetchAtAux g at0 pos' rest
    | .block b =>
      if pos = at0 then some (.block b)
      else fetchAtAux g at0 (pos + 1) rest

/-- fetchAt of Attributes.ts. -/
def fetchAt (g : GlyphFn) (at0 : Int) (delta : List Delta) : Option DeltaType :=
  fetchAtAux g at0 0 delta

/-- Length of one flattened segment: a glyph counts its code units, a
block counts 1. -/
def segLen : DeltaType → Nat
  | .str t => t.length
  | .block _ => 1

/-- Total code-unit length of a glyph list. -/
def glyphsLenSum (gs : List Str) : Nat := (gs.map List.length).sum

/-- Total length of a segment list. -/
def segLenSum (l : List DeltaType) : Nat := (l.map segLen).sum

/-- The document flattened into segments: each text run contributes its
graphemes in order, each block marker contributes itself. -/
def flatSegs (g : GlyphFn) (delta : List Delta) : List DeltaType :=
  delta.flatMap fun d =>
    match d.insert with
    | .str s => (g s).map DeltaType.str
    | .block b => [.block b]

/-- Reference scan over the flattened segments: return the glyph whose
last code unit sits at the requested position, or the block sitting at
the requested position. -/
def fetchSegs (at0 : Int) : Int → List DeltaType → Option DeltaType
  | _, [] => none
  | pos, .str t :: rest =>
    if pos + (t.length : Int) - 1 = at0 then some (.str t)
    else fetchSegs at0 (pos + t.length) rest
  | pos, .block b :: rest =>
    if pos = at0 then some (.block b) else fetchSegs at0 (pos + 1) rest

/-- Document state of the Text class: attributes, delta and selection. -/
structure Text where
  attributes : Attributes
  delta : List Delta
  sel : XSelection
deriving DecidableEq, Repr

/-- Transaction state: the local cursor, the accumulated operation list,
the hasBlockAtFront flag, and the document fields the builder reads and
writes (formatAt writes the document attributes through Object.assign,
the other methods only read selection and delta). -/
structure Transaction where
  cursor : Int
  ops : List Operation
  hasBlockAtFront : Bool
  attributes : Attributes
  sel : XSelection
  delta : List Delta
deriving DecidableEq, Repr

/-- createTransaction: cursor starts at fromX of the document selection. -/
def createTransaction (t : Text) : Transaction :=
  ⟨fromX t.sel, [], false, t.attributes, t.sel, t.delta⟩

namespace Transaction

/-- The retain method: asserts a nonnegative argument (modelled as none),
advances the cursor and pushes a Retain only for a positive argument. -/
def retainN (n : Int) (tr : Transaction) : Option Transaction :=
  if 0 ≤ n then
    some { tr with
           cursor := tr.cursor + n,
           ops := if 0 < n then tr.ops ++ [.retain n none] else tr.ops }
  else none

/-- The private retainIfNeeded helper: reset the cursor to 0 when the
target position is at or before it, then retain forward to the target. -/
def retainIfNeeded (at0 : Int) (tr : Transaction) : Option Transaction :=
  let tr1 := if at0 ≤ tr.cursor then { tr with cursor := 0 } else tr
  retainN (at0 - tr1.cursor) tr1

/-- The deleteAt method: retain to the position, then push a Delete when
the length is nonzero (JavaScript truthiness of the length). -/
def deleteAt (at0 len : Int) (tr : Transaction) : Option Transaction :=
  (retainIfNeeded at0 tr).map fun tr1 =>
    if len ≠ 0 then { tr1 with ops := tr1.ops ++ [.delete len] } else tr1

/-- The private deleteIfNeeded helper: when the document selection is not
collapsed, delete it at the current cursor; the flag reports whether a
deletion happened. -/
def deleteIfNeeded (tr : Transaction) : Option (Transaction × Bool) :=
  if isCollapsedX tr.sel then some (tr, false)
  else (deleteAt tr.cursor (distanceX tr.sel) tr).map fun tr1 => (tr1, true)

/-- The insertAt method: delete the selection or retain to the position,
then push the new text entry and advance the cursor by its length. -/
def insertAt (at0 : Int) (content : Str) (attrs : Option Attributes)
    (tr : Transaction) : Option Transaction :=
  (deleteIfNeeded tr).bind fun (tr1, deleted) =>
    (if deleted then some tr1 else retainIfNeeded at0 tr1).map fun tr2 =>
      { tr2 with
        cursor := tr2.cursor + content.length,
        ops := tr2.ops ++ [.ins ⟨.str content, attrs.getD {}⟩] }

/-- The insert method: insertAt at the current cursor. -/
def insert (content : Str) (attrs : Option Attributes) (tr : Transaction) :
    Option Transaction :=
  insertAt tr.cursor content attrs tr

/-- The blockAt method. -/
def blockAt (at0 : Int) (b : BlockType) (attrs : Option Attributes)
    (tr : Transaction) : Option Transaction :=
  (deleteIfNeeded tr).bind fun (tr1, deleted) =>
    (if deleted then some tr1 else retainIfNeeded at0 tr1).map fun tr2 =>
      { tr2 with
        cursor := tr2.cursor + 1,
        ops := tr2.ops ++ [.ins ⟨.block b, attrs.getD {}⟩] }

/-- The block method. -/
def block (b : BlockType) (attrs : Option Attributes) (tr : Transaction) :
    Option Transaction :=
  blockAt tr.cursor b attrs tr

/-- The convertAt method: emits a Swap of a block. -/
def convertAt (at0 : Int) (b : BlockType) (attrs : Option Attributes)
    (tr : Transaction) : Option Transaction :=
  (deleteIfNeeded tr).bind fun (tr1, deleted) =>
    (if deleted then some tr1 else retainIfNeeded at0 tr1).map fun tr2 =>
      { tr2 with
        cursor := tr2.cursor + 1,
        ops := tr2.ops ++ [.swap (.block b) attrs] }

/-- The replaceAt method: emits a Swap of a string and advances the
cursor by its code-unit length. -/
def replaceAt (at0 : Int) (content : Str) (attrs : Option Attributes)
    (tr : Transaction) : Option Transaction :=
  (deleteIfNeeded tr).bind fun (tr1, deleted) =>
    (if deleted then some tr1 else retainIfNeeded at0 tr1).map fun tr2 =>
      { tr2 with
        cursor := tr2.cursor + content.length,
        ops := tr2.ops ++ [.swap (.str content) attrs] }

/-- The formatAt method: retain to the position, push a Retain carrying
the attribute overlay, and Object.assign the overlay into the document
attributes.  The cursor is left where retainIfNeeded put it. -/
def formatAt (at0 len : Int) (a : Attributes) (tr : Transaction) :
    Option Transaction :=
  (retainIfNeeded at0 tr).map fun tr1 =>
    { tr1 with
      ops := tr1.ops ++ [.retain len (some a)],
      attributes := Attributes.assign tr1.attributes a }

/-- The format method: formatAt at the cursor over the selection span. -/
def format (a : Attributes) (tr : Transaction) : Option Transaction :=
  formatAt tr.cursor (distanceX tr.sel) a tr

/-- The delete method with a numeric argument: asserts the length is not
negative; when the selection is collapsed and the length is 1, the unit
left of the cursor is fetched and, when it is a string grapheme, its
code-unit length replaces 1; the deletion is then emitted backwards from
the cursor when the cursor is positive. -/
def deleteN (g : GlyphFn) (len : Int) (tr : Transaction) : Option Transaction :=
  if -1 < len then
    (deleteIfNeeded tr).bind fun (tr1, deleted) =>
      if deleted then some tr1
      else
        let len2 : Int :=
          if len = 1 then
            match fetchAt g (tr1.cursor - 1) tr1.delta with
            | some (.str d) => (d.length : Int)
            | _ => len
          else len
        if 0 < tr1.cursor then deleteAt (tr1.cursor - len2) len2 tr1 else some tr1
  else none

end Transaction

/-- transactSync of the Text class.  The transaction function is modelled
as a pure function from the fresh transaction to the transaction it
leaves behind together with its return value (undefined is none).  The
source commits when the returned value is not the literal false and the
operation list is nonempty; the document attribute writes made by the
builder are visible whether or not the commit happens.  Returns none
only when the applier runs out of fuel. -/
def transactSync (fuel : Nat) (t : Text)
    (fn : Transaction → Transaction × Option Bool) : Option Text :=
  let tr0 := createTransaction t
  let res := fn tr0
  let tr := res.1
  if res.2 ≠ some false ∧ tr.ops ≠ [] then
    match processLoop fuel (initState tr.ops t.delta) with
    | some (_, newDelta) =>
      some { attributes := tr.attributes, delta := newDelta,
             sel := ⟨selectionFromTransaction tr.ops tr.hasBlockAtFront t.sel.startX,
                     selectionFromTransaction tr.ops tr.hasBlockAtFront t.sel.endX⟩ }
    | none => none
  else some { t with attributes := tr.attributes }

/-! Auxiliary definitions used to state the claims. -/

/-- Length contributed by an insert operation, 0 for the others. -/
def opInsLen : Operation → Nat
  | .ins d => d.len
  | _ => 0

/-- Count carried by a delete operation, 0 for the others. -/
def opDelLen : Operation → Int
  | .delete n => n
  | _ => 0

/-- Sum of the lengths of all insert operations of a list. -/
def insTotal (ops : List Operation) : Nat := (ops.map opInsLen).sum

/-- Sum of the counts of all delete operations of a list. -/
def delTotal (ops : List Operation) : Int := (ops.map opDelLen).sum

/-- Operations considered by the amended length claim: swaps are
excluded and delete counts are at least 1. -/
def opWF : Operation → Bool
  | .swap _ _ => false
  | .delete n => decide (1 ≤ n)
  | _ => true

/-- Operations that are a retain or an insert. -/
def riOnly : Operation → Bool
  | .ins _ => true
  | .retain _ _ => true
  | _ => false

/-- Operations that are not a delete. -/
def deleteFree : Operation → Bool
  | .delete _ => false
  | _ => true

/-! A small reference heap used to state the frame property of
transactSimulate: the attribute maps, delta arrays and selections of live
documents are cells of a store, and a Text object holds indices into it.
Cloning allocates fresh cells at the end of the store, so the commit of
the simulated transaction writes only to the fresh cells. -/

/-- The store of document cells. -/
structure Store where
  attrsH : List Attributes
  deltaH : List (List Delta)
  selH : List XSelection

/-- A document as references into the store. -/
structure TextRef where
  aRef : Nat
  dRef : Nat
  sRef : Nat

/-- Read the attributes cell of a reference. -/
def Store.readA (st : Store) (r : Nat) : Attributes := st.attrsH.getD r {}

/-- Read the delta cell of a reference. -/
def Store.readD (st : Store) (r : Nat) : List Delta := st.deltaH.getD r []

/-- Read the selection cell of a reference. -/
def Store.readS (st : Store) (r : Nat) : XSelection := st.selH.getD r ⟨0, 0⟩

/-- transactSimulate of the Text class over the store: builds a clone of
the document (new Text with cloned attributes and delta and a fresh
selection), runs the transaction function against the clone, and commits
onto the cells of the clone only.  The returned reference points at
the fresh cells. -/
def transactSimulate (fuel : Nat) (st : Store) (t : TextRef)
    (fn : Transaction → Transaction × Option Bool) : Store × TextRef :=
  let d := st.readD t.dRef
  let clone : Text := ⟨st.readA t.aRef, d, ⟨0, 0⟩⟩
  let newRef : TextRef := ⟨st.attrsH.length, st.deltaH.length, st.selH.length⟩
  let res := fn (createTransaction clone)
  let tr := res.1
  let out : List Delta × XSelection :=
    if res.2 ≠ some false ∧ tr.ops ≠ [] then
      match processLoop fuel (initState tr.ops d) with
      | some (_, nd) =>
        (nd, ⟨selectionFromTransaction tr.ops tr.hasBlockAtFront 0,
              selectionFromTransaction tr.ops tr.hasBlockAtFront 0⟩)
      | none => (d, ⟨0, 0⟩)
    else (d, ⟨0, 0⟩)
  (⟨st.attrsH ++ [tr.attributes], st.deltaH ++ [out.1], st.selH ++ [out.2]⟩, newRef)

/-! Concrete documents, segmenters and transaction functions used by the
end-to-end claims, the counterexamples and the witnesses. -/

/-- Attribute map with only the bold key set. -/
def aBold (x : Bool) : Attributes := { bold := some x }

/-- Attribute map with bold and underline set, as in scenario Q. -/
def aBoldUnder : Attributes := { bold := some true, underline := some (.b true) }

/-- A two-code-unit grapheme, standing for a surrogate pair. -/
def famG : Str := [200, 201]

/-- A concrete segmenter: the string equal to famG is one grapheme,
any other string splits into single code units. -/
def glyphsFam : GlyphFn := fun s => if s = famG then [famG] else s.map fun c => [c]

/-- The empty document. -/
def docEmpty : Text := ⟨{}, [], ⟨0, 0⟩⟩

/-- Transaction function of scenario A: insert the string Hello World. -/
def c7fn1 : Transaction → Transaction × Option Bool :=
  fun tr => ((tr.insert (strU "Hello World") none).getD tr, none)

/-- Transaction function of scenario A: insertAt position 5. -/
def c7fn2 : Transaction → Transaction × Option Bool :=
  fun tr => ((tr.insertAt 5 (strU " Today") none).getD tr, none)

/-- The document after the first commit of scenario A. -/
def c7doc1 : Text := ⟨{}, [⟨.str (strU "Hello World"), {}⟩], ⟨11, 11⟩⟩

/-- The delta of scenario Q before formatting. -/
def c6delta : List Delta :=
  [⟨.block .paragraph, {}⟩, ⟨.str (strU "Hello"), {}⟩,
   ⟨.str (strU " W"), aBold true⟩, ⟨.str (strU "o"), aBoldUnder⟩,
   ⟨.str (strU "rld"), aBold true⟩]

/-- The document of scenario Q, selection from 2 to 9. -/
def c6doc : Text := ⟨{}, c6delta, ⟨2, 9⟩⟩

/-- Transaction function of scenario Q: format bold off. -/
def c6fn : Transaction → Transaction × Option Bool :=
  fun tr => ((tr.format (aBold false)).getD tr, none)

/-- The delta scenario Q expects after the commit: the overlay sets bold
to false on the spanned entries instead of deleting the key. -/
def c6expected : List Delta :=
  [⟨.block .paragraph, {}⟩, ⟨.str (strU "H"), {}⟩,
   ⟨.str (strU "ello"), aBold false⟩, ⟨.str (strU " W"), aBold false⟩,
   ⟨.str (strU "o"), { bold := some false, underline := some (.b true) }⟩,
   ⟨.str (strU "rld"), aBold true⟩]

/-- A transaction function that inserts the single letter A and returns
true, asking for the transaction to be cancelled. -/
def c1fn : Transaction → Transaction × Option Bool :=
  fun tr => ((tr.insert (strU "A") none).getD tr, some true)

/-- Document holding the single run Hello with a collapsed selection at 1. -/
def c2doc : Text := ⟨{}, [⟨.str (strU "Hello"), {}⟩], ⟨1, 1⟩⟩

/-- Transaction function deleting the five code units from position 0. -/
def c2fn : Transaction → Transaction × Option Bool :=
  fun tr => ((tr.deleteAt 0 5).getD tr, none)

/-- The delta of test L before the replaceAt call. -/
def c4delta : List Delta :=
  [⟨.block .blockquote, {}⟩, ⟨.block .unordered, {}⟩,
   ⟨.str (strU "ello"), {}⟩, ⟨.block .ordered, {}⟩]

/-- Operation list of replaceAt(2, blah): retain 2 then swap. -/
def c4ops : List Operation := [.retain 2 none, .swap (.str (strU "blah")) none]

/-- A document over the famG grapheme with the cursor after it. -/
def c5doc : Text := ⟨{}, [⟨.str famG, {}⟩], ⟨2, 2⟩⟩

/-! Theorems. -/

/-- C1: evaluation of the code at the failing input.  A transaction
function that emits insert(A) and returns true is committed anyway by
transactSync: the empty document ends up holding the run A with the
selection moved to 1, although returning true is documented to cancel
the transaction and leave delta and selection unchanged.  The guard of
the source tests fn(tr) against false instead of true. -/
theorem c1_true_return_still_commits :
    transactSync 10 docEmpty c1fn = some ⟨{}, [⟨.str (strU "A"), {}⟩], ⟨1, 1⟩⟩ ∧
    [⟨.str (strU "A"), ({} : Attributes)⟩] ≠ docEmpty.delta ∧
    (⟨1, 1⟩ : XSelection) ≠ docEmpty.sel := by decide

/-- C6: committing format with bold false over the selection from 2 to 9
of scenario Q yields exactly the expected six entries, and the spanned
entries carry the key bold set to false rather than having it absent. -/
theorem c6_format_overlay_sets_false :
    transactSync 30 c6doc c6fn = some ⟨aBold false, c6expected, ⟨2, 9⟩⟩ ∧
    c6expected =
      [⟨.block .paragraph, {}⟩, ⟨.str (strU "H"), {}⟩,
       ⟨.str (strU "ello"), aBold false⟩, ⟨.str (strU " W"), aBold false⟩,
       ⟨.str (strU "o"), { bold := some false, underline := some (.b true) }⟩,
       ⟨.str (strU "rld"), aBold true⟩] ∧
    (c6expected.get? 2).map (fun d => d.attributes.bold) = some (some false) ∧
    (c6expected.get? 5).map (fun d => d.attributes.bold) = some (some true) := by decide

/-- C7: from the empty document, committing insert of Hello World gives
the single run, and then committing insertAt 5 of the string Today gives
exactly the three adjacent text runs, none of them merged. -/
theorem c7_insert_then_insertAt :
    transactSync 20 docEmpty c7fn1 = some c7doc1 ∧
    c7doc1.delta = [⟨.str (strU "Hello World"), {}⟩] ∧
    (transactSync 20 c7doc1 c7fn2).map Text.delta =
      some [⟨.str (strU "Hello"), {}⟩, ⟨.str (strU " Today"), {}⟩,
            ⟨.str (strU " World"), {}⟩] := by decide

/-- C2 counterexample: the committed transaction deleteAt(0, 5) on the
document Hello with collapsed selection at 1 remaps the selection to -4,
which is negative, while the post-commit document length is 0. -/
theorem c2_counterexample :
    transactSync 10 c2doc c2fn = some ⟨{}, [], ⟨-4, -4⟩⟩ ∧
    ¬ (0 : Int) ≤ (-4 : Int) := by decide

/-- C3 counterexample: for the operation list retain 2 then delete 3,
the remap of 2 is 2 but the remap of 3 is 0, so monotonicity fails. -/
theorem c3_counterexample :
    (2 : Int) ≤ 3 ∧
    selectionFromTransaction [.retain 2 none, .delete 3] false 2 = 2 ∧
    selectionFromTransaction [.retain 2 none, .delete 3] false 3 = 0 ∧
    ¬ selectionFromTransaction [.retain 2 none, .delete 3] false 2 ≤
        selectionFromTransaction [.retain 2 none, .delete 3] false 3 := by decide

/-- C4 counterexample: committing retain 2 then swap of the four-unit
string blah onto the delta of test L grows the document from 7 to 10
units, although the list has no insert and no delete, so a swap does not
contribute zero net change. -/
theorem c4_counterexample :
    (processOperations 20 c4ops c4delta).map (fun r => sumLen r.2) = some 10 ∧
    sumLen c4delta = 7 ∧ insTotal c4ops = 0 ∧ delTotal c4ops = 0 ∧
    (10 : Int) ≠ 7 + (0 : Int) - 0 := by decide

/-- C8 counterexample: the operation list retain 3 then insert of c has
all its positions beyond the two-unit document ab, raises no error, but
does change the delta: the insert is appended at the end, so the delta is
not left unchanged by the out-of-range portion of the operations. -/
theorem c8_counterexample :
    processOperations 20 [.retain 3 none, .ins ⟨.str (strU "c"), {}⟩]
        ([⟨.str (strU "ab"), {}⟩] : List Delta)
      = some (false, [⟨.str (strU "ab"), {}⟩, ⟨.str (strU "c"), {}⟩]) ∧
    ([⟨.str (strU "ab"), {}⟩, ⟨.str (strU "c"), {}⟩] : List Delta) ≠
      [⟨.str (strU "ab"), {}⟩] := by decide

/-- On a delete-free operation list the remap loop never decreases the
position being remapped. -/
lemma remapLoop_ge : ∀ (ops : List Operation), ops.all deleteFree = true →
    ∀ c pos : Int, pos ≤ remapLoop ops c pos := by
  intro ops
  induction ops with
  | nil => intro _ c pos; simp [remapLoop]
  | cons op rest ih =>
    intro hall c pos
    have hall' : deleteFree op = true ∧ rest.all deleteFree = true := by
      simpa [List.all_cons] using hall
    match op with
    | .delete n => simp [deleteFree] at hall'
    | .retain n a =>
      rw [remapLoop]
      split
      · exact le_refl pos
      · exact ih hall'.2 (c + n) pos
    | .swap p a =>
      rw [remapLoop]
      split
      · exact le_refl pos
      · exact ih hall'.2 c pos
    | .ins d =>
      rw [remapLoop]
      split
      · split
        · omega
        · have := ih hall'.2 (c + (d.len : Int)) (pos + (d.len : Int))
          omega
      · split
        · exact le_refl pos
        · exact ih hall'.2 c pos

/-- On a delete-free operation list the remap loop is monotone in the
position being remapped. -/
lemma remapLoop_mono : ∀ (ops : List Operation), ops.all deleteFree = true →
    ∀ c a b : Int, a ≤ b → remapLoop ops c a ≤ remapLoop ops c b := by
  intro ops
  induction ops with
  | nil => intro _ c a b hab; simpa [remapLoop] using hab
  | cons op rest ih =>
    intro hall c a b hab
    have hall' : deleteFree op = true ∧ rest.all deleteFree = true := by
      simpa [List.all_cons] using hall
    match op with
    | .delete n => simp [deleteFree] at hall'
    | .retain n a0 =>
      rw [remapLoop, remapLoop]
      by_cases h1 : c + n > a
      · rw [if_pos h1]
        by_cases h2 : c + n > b
        · rw [if_pos h2]; exact hab
        · rw [if_neg h2]
          have := remapLoop_ge rest hall'.2 (c + n) b
          omega
      · rw [if_neg h1, if_neg (by omega : ¬ c + n > b)]
        exact ih hall'.2 (c + n) a b hab
    | .swap p a0 =>
      rw [remapLoop, remapLoop]
      by_cases h1 : c > a
      · rw [if_pos h1]
        by_cases h2 : c > b
        · rw [if_pos h2]; exact hab
        · rw [if_neg h2]
          have := remapLoop_ge rest hall'.2 c b
          omega
      · rw [if_neg h1, if_neg (by omega : ¬ c > b)]
        exact ih hall'.2 c a b hab
    | .ins d =>
      have hL : (0 : Int) ≤ (d.len : Int) := Int.ofNat_nonneg _
      rw [remapLoop, remapLoop]
      by_cases ha : a ≥ c
      · have hb : b ≥ c := by omega
        rw [if_pos ha, if_pos hb,
          if_neg (by omega : ¬ c + (d.len : Int) > a + (d.len : Int)),
          if_neg (by omega : ¬ c + (d.len : Int) > b + (d.len : Int))]
        exact ih hall'.2 (c + (d.len : Int)) (a + (d.len : Int)) (b + (d.len : Int)) (by omega)
      · rw [if_neg ha, if_pos (by omega : c > a)]
        by_cases hb : b ≥ c
        · rw [if_pos hb, if_neg (by omega : ¬ c + (d.len : Int) > b + (d.len : Int))]
          have := remapLoop_ge rest hall'.2 (c + (d.len : Int)) (b + (d.len : Int))
          omega
        · rw [if_neg hb, if_pos (by omega : c > b)]
          exact hab

/-- The hasBlockAtFront nudge of selectionFromTransaction is monotone. -/
lemma nudge_mono (hbf : Bool) {x y : Int} (h : x ≤ y) :
    (if x = 0 ∧ hbf then 1 else x) ≤ (if y = 0 ∧ hbf then 1 else y) := by
  cases hbf with
  | false => simpa using h
  | true =>
    simp only [and_true]
    split <;> split <;> omega

/-- C3 amended: the remap of selectionFromTransaction is monotone for
every delete-free operation list (the counterexample shows monotonicity
fails across a Delete: positions strictly inside the deleted span are
shifted down by the full delete count). -/
theorem c3_amended (ops : List Operation) (h : ops.all deleteFree = true)
    (hbf : Bool) (a b : Int) (hab : a ≤ b) :
    selectionFromTransaction ops hbf a ≤ selectionFromTransaction ops hbf b := by
  unfold selectionFromTransaction
  exact nudge_mono hbf (remapLoop_mono ops h 0 a b hab)

/-- Witness for the amended C3 at a concrete delete-free operation list. -/
theorem c3_amended_witness :
    ([Operation.retain 2 none, .ins ⟨.str (strU "xy"), {}⟩].all deleteFree = true) ∧
    (1 : Int) ≤ 3 ∧
    selectionFromTransaction [Operation.retain 2 none, .ins ⟨.str (strU "xy"), {}⟩] false 1 ≤
      selectionFromTransaction [Operation.retain 2 none, .ins ⟨.str (strU "xy"), {}⟩] false 3 :=
  ⟨by decide, by decide,
   c3_amended [Operation.retain 2 none, .ins ⟨.str (strU "xy"), {}⟩] (by decide) false 1 3 (by decide)⟩

/-! Helper lemmas about lists, lengths and totals. -/

lemma sumLen_nil : sumLen [] = 0 := rfl

lemma sumLen_cons (d : Delta) (l : List Delta) :
    sumLen (d :: l) = d.len + sumLen l := by simp [sumLen]

lemma sumLen_append (l1 l2 : List Delta) :
    sumLen (l1 ++ l2) = sumLen l1 + sumLen l2 := by simp [sumLen]

lemma insTotal_nil : insTotal [] = 0 := rfl

lemma insTotal_cons (o : Operation) (l : List Operation) :
    insTotal (o :: l) = opInsLen o + insTotal l := by simp [insTotal]

lemma delTotal_nil : delTotal [] = 0 := rfl

lemma delTotal_cons (o : Operation) (l : List Operation) :
    delTotal (o :: l) = opDelLen o + delTotal l := by simp [delTotal]

lemma drop_q_cons {α : Type} {l : List α} {q : Nat} {a : α} (h : l.get? q = some a) :
    l.drop q = a :: l.drop (q + 1) := by
  induction l generalizing q with
  | nil => simp at h
  | cons x xs ih =>
    cases q with
    | zero => simp_all
    | succ n =>
      simp only [List.get?_cons_succ] at h
      simpa using ih h

lemma set_drop_q {α : Type} {l : List α} {q : Nat} {x : α} (hq : q < l.length) :
    (l.set q x).drop q = x :: l.drop (q + 1) := by
  rw [List.drop_set, if_neg (lt_irrefl q), Nat.sub_self,
    ← List.getElem_cons_drop l q hq]
  rfl

lemma all_set {α : Type} {p : α → Bool} {l : List α} (h : l.all p = true)
    {x : α} (hx : p x = true) (q : Nat) : (l.set q x).all p = true := by
  rw [List.all_eq_true] at h ⊢
  intro y hy
  rcases List.mem_or_eq_of_mem_set hy with h1 | h1
  · exact h y h1
  · rw [h1]; exact hx

lemma sumLen_decomp {l : List Delta} {i : Nat} {d : Delta} (h : l.get? i = some d) :
    sumLen l = sumLen (l.take i) + d.len + sumLen (l.drop (i + 1)) := by
  conv_lhs => rw [← List.take_append_drop i l]
  rw [drop_q_cons h, sumLen_append, sumLen_cons]
  omega

lemma sumLen_spliceReplace (l : List Delta) (i : Nat) (xs : List Delta) :
    sumLen (spliceReplace l i xs)
      = sumLen (l.take i) + sumLen xs + sumLen (l.drop (i + 1)) := by
  simp [spliceReplace, sumLen_append]
  omega

lemma sumLen_spliceRemove (l : List Delta) (i : Nat) :
    sumLen (spliceRemove l i) = sumLen (l.take i) + sumLen (l.drop (i + 1)) := by
  simp [spliceRemove, sumLen_append]

lemma jsTake_jsDrop_len (s : Str) (k : Int) :
    (jsTake s k).length + (jsDropFrom s k).length = s.length := by
  by_cases h : k < 0 <;> simp [jsTake, jsDropFrom, h] <;> omega

lemma jsDropFrom_len_int (s : Str) (k : Int) (h1 : 0 ≤ k) (h2 : k ≤ (s.length : Int)) :
    ((jsDropFrom s k).length : Int) = (s.length : Int) - k := by
  have hk := Int.toNat_of_nonneg h1
  simp [jsDropFrom, not_lt.mpr h1]
  omega

/-- A retain with attributes preserves the total delta length, never
touches the operation list, and advances q by at most one: every splice
it performs replaces an entry by pieces of the same total length. -/
lemma pstepRetainA_facts (s : PState) (a : Attributes) (s' : PState)
    (h : pstepRetainA s a = .next s') :
    sumLen s'.delta = sumLen s.delta ∧ s'.ops = s.ops ∧
    (s'.q = s.q ∨ s'.q = s.q + 1) := by
  rcases hd : s.delta.get? s.i with _ | ⟨ins, dattrs⟩
  · simp only [pstepRetainA, hd] at h
    cases h; simp
  · cases ins with
    | str str0 =>
      have hs := sumLen_decomp hd
      simp only [Delta.len] at hs
      have hjs := jsTake_jsDrop_len str0 (s.anchor - s.dPos)
      have hjs2 := jsTake_jsDrop_len str0 (s.cursor - s.dPos)
      simp only [pstepRetainA, hd, Delta.len] at h
      split at h
      · cases h; simp
      · split at h
        · cases h
          refine ⟨?_, rfl, Or.inl rfl⟩
          rw [sumLen_spliceReplace]
          simp only [Delta.len, sumLen, List.map_cons, List.map_nil, List.sum_cons,
            List.sum_nil] at hs ⊢
          omega
        · split at h
          · cases h
            refine ⟨?_, rfl, Or.inl rfl⟩
            rw [sumLen_spliceReplace]
            simp only [Delta.len, sumLen, List.map_cons, List.map_nil, List.sum_cons,
              List.sum_nil] at hs ⊢
            omega
          · split at h
            · cases h
              refine ⟨?_, rfl, Or.inr rfl⟩
              rw [sumLen_spliceReplace]
              simp only [Delta.len, sumLen, List.map_cons, List.map_nil, List.sum_cons,
                List.sum_nil] at hs ⊢
              omega
            · cases h; exact ⟨rfl, rfl, Or.inr rfl⟩
    | block b =>
      have hs := sumLen_decomp hd
      simp only [Delta.len] at hs
      simp only [pstepRetainA, hd, Delta.len] at h
      split at h
      · cases h; simp
      · split at h
        · cases h; simp
        · split at h
          · cases h
            refine ⟨?_, rfl, Or.inl rfl⟩
            rw [sumLen_spliceReplace]
            simp only [Delta.len, sumLen, List.map_cons, List.map_nil, List.sum_cons,
              List.sum_nil] at hs ⊢
            omega
          · split at h
            · cases h; exact ⟨rfl, rfl, Or.inr rfl⟩
            · cases h; exact ⟨rfl, rfl, Or.inr rfl⟩

lemma pstepIns_facts (s : PState) (d0 : Delta) (s' : PState)
    (h : pstepIns s d0 = .next s') :
    s'.ops = s.ops ∧
    ((s'.q = s.q ∧ sumLen s'.delta = sumLen s.delta) ∨
     (s'.q = s.q + 1 ∧ sumLen s'.delta = sumLen s.delta + d0.len)) := by
  rcases hd : s.delta.get? s.i with _ | ⟨ins, dattrs⟩
  · simp only [pstepIns, hd] at h
    cases h
    refine ⟨rfl, Or.inr ⟨rfl, ?_⟩⟩
    simp [sumLen_append, sumLen_cons, sumLen_nil]
  · cases ins with
    | str str0 =>
      have hs := sumLen_decomp hd
      simp only [Delta.len] at hs
      have hjs := jsTake_jsDrop_len str0 (s.cursor - s.dPos)
      simp only [pstepIns, hd, Delta.len] at h
      split at h
      · cases h; exact ⟨rfl, Or.inl ⟨rfl, rfl⟩⟩
      · split at h
        · cases h
          refine ⟨rfl, Or.inr ⟨rfl, ?_⟩⟩
          rw [sumLen_spliceReplace]
          simp only [Delta.len, sumLen, List.map_cons, List.map_nil, List.sum_cons,
            List.sum_nil] at hs ⊢
          omega
        · split at h
          · cases h
            refine ⟨rfl, Or.inr ⟨rfl, ?_⟩⟩
            rw [sumLen_spliceReplace]
            simp only [Delta.len, sumLen, List.map_cons, List.map_nil, List.sum_cons,
              List.sum_nil] at hs ⊢
            omega
          · cases h; exact ⟨rfl, Or.inl ⟨rfl, rfl⟩⟩
    | block b =>
      have hs := sumLen_decomp hd
      simp only [Delta.len] at hs
      simp only [pstepIns, hd, Delta.len] at h
      split at h
      · cases h; exact ⟨rfl, Or.inl ⟨rfl, rfl⟩⟩
      · split at h
        · cases h
          refine ⟨rfl, Or.inr ⟨rfl, ?_⟩⟩
          rw [sumLen_spliceReplace]
          simp only [Delta.len, sumLen, List.map_cons, List.map_nil, List.sum_cons,
            List.sum_nil] at hs ⊢
          omega
        · split at h
          · cases h; exact ⟨rfl, Or.inl ⟨rfl, rfl⟩⟩
          · cases h; exact ⟨rfl, Or.inl ⟨rfl, rfl⟩⟩
lemma pstepDelete_facts (s : PState) (n : Int) (hn : 1 ≤ n) (s' : PState)
    (h : pstepDelete s n = .next s') :
    (s'.ops = s.ops ∧ s'.q = s.q ∧ sumLen s'.delta = sumLen s.delta) ∨
    (s'.ops = s.ops ∧ s'.q = s.q + 1 ∧ (sumLen s'.delta : Int) = (sumLen s.delta : Int) - n) ∨
    (∃ m : Int, 0 ≤ m ∧ m < n ∧ s'.ops = s.ops.set s.q (.delete (n - m)) ∧
      s'.q = s.q ∧ (sumLen s'.delta : Int) = (sumLen s.delta : Int) - m) := by
  rcases hd : s.delta.get? s.i with _ | ⟨ins, dattrs⟩
  · simp only [pstepDelete, hd] at h
    cases h
  · cases ins with
    | str str0 =>
      have hs := sumLen_decomp hd
      simp only [Delta.len] at hs
      have hjs := jsTake_jsDrop_len str0 (s.cursor - s.dPos)
      simp only [pstepDelete, hd, Delta.len] at h
      split at h
      · cases h; exact Or.inl ⟨rfl, rfl, rfl⟩
      · split at h
        · split at h
          · rename_i hgt
            cases h
            refine Or.inr (Or.inl ⟨rfl, rfl, ?_⟩)
            have hlen : ((jsDropFrom str0 n).length : Int) = (str0.length : Int) - n := by
              refine jsDropFrom_len_int str0 n (by omega) (by omega)
            rw [sumLen_spliceReplace]
            simp only [Delta.len, sumLen, List.map_cons, List.map_nil, List.sum_cons,
              List.sum_nil] at hs ⊢
            omega
          · split at h
            · rename_i hgt heq
              cases h
              refine Or.inr (Or.inl ⟨rfl, rfl, ?_⟩)
              rw [sumLen_spliceRemove]
              omega
            · rename_i hgt heq
              cases h
              refine Or.inr (Or.inr ⟨(str0.length : Int), by omega, by omega, rfl, rfl, ?_⟩)
              rw [sumLen_spliceRemove]
              omega
        · split at h
          · cases h
            refine Or.inl ⟨rfl, rfl, ?_⟩
            rw [sumLen_spliceReplace]
            simp only [Delta.len, sumLen, List.map_cons, List.map_nil, List.sum_cons,
              List.sum_nil] at hs ⊢
            omega
          · cases h; exact Or.inl ⟨rfl, rfl, rfl⟩
    | block b =>
      have hs := sumLen_decomp hd
      simp only [Delta.len] at hs
      simp only [pstepDelete, hd, Delta.len] at h
      split at h
      · cases h; exact Or.inl ⟨rfl, rfl, rfl⟩
      · split at h
        · rename_i hlt
          cases h
          refine Or.inr (Or.inr ⟨1, by omega, by omega, rfl, rfl, ?_⟩)
          rw [sumLen_spliceRemove]
          omega
        · rename_i hlt
          cases h
          refine Or.inr (Or.inl ⟨rfl, rfl, ?_⟩)
          rw [sumLen_spliceRemove]
          omega

/-- One applier step at a well-formed operation (no swap, delete counts
at least 1) preserves the quantity total delta length plus remaining
insert length minus remaining delete count, and preserves
well-formedness of the operation list. -/
lemma pstep_inv (s : PState) (op : Operation) (hop : s.ops.get? s.q = some op)
    (hwf : s.ops.all opWF = true) (s' : PState) (h : pstep s op = .next s') :
    ((sumLen s'.delta : Int) + (insTotal (s'.ops.drop s'.q) : Int)
        - delTotal (s'.ops.drop s'.q)
      = (sumLen s.delta : Int) + (insTotal (s.ops.drop s.q) : Int)
        - delTotal (s.ops.drop s.q))
    ∧ s'.ops.all opWF = true := by
  have hdrop := drop_q_cons hop
  have hqlt : s.q < s.ops.length := by
    rcases List.get?_eq_some.mp hop with ⟨hlt, _⟩
    exact hlt
  cases op with
  | retain n attrs =>
    cases attrs with
    | none =>
      simp only [pstep] at h
      cases h
      refine ⟨?_, hwf⟩
      rw [hdrop]
      simp only [insTotal_cons, delTotal_cons, opInsLen, opDelLen]
      push_cast
      omega
    | some a =>
      simp only [pstep] at h
      obtain ⟨h1, h2, h3⟩ := pstepRetainA_facts _ a s' h
      have hfields :
          (if s.anchor = 0 then { s with anchor := s.cursor, cursor := s.cursor + n } else s).delta
              = s.delta ∧
          (if s.anchor = 0 then { s with anchor := s.cursor, cursor := s.cursor + n } else s).ops
              = s.ops ∧
          (if s.anchor = 0 then { s with anchor := s.cursor, cursor := s.cursor + n } else s).q
              = s.q := by
        split <;> simp
      rw [hfields.1] at h1
      rw [hfields.2.1] at h2
      rw [hfields.2.2] at h3
      refine ⟨?_, by rw [h2]; exact hwf⟩
      rcases h3 with hq | hq
      · rw [h1, h2, hq]
      · rw [h1, h2, hq, hdrop]
        simp only [insTotal_cons, delTotal_cons, opInsLen, opDelLen]
        push_cast
        omega
  | ins d0 =>
    simp only [pstep] at h
    obtain ⟨hops, hcase⟩ := pstepIns_facts s d0 s' h
    refine ⟨?_, by rw [hops]; exact hwf⟩
    rcases hcase with ⟨hq, hlen⟩ | ⟨hq, hlen⟩
    · rw [hops, hq, hlen]
    · rw [hops, hq, hlen, hdrop]
      simp only [insTotal_cons, delTotal_cons, opInsLen, opDelLen]
      push_cast
      omega
  | delete n =>
    have hn : 1 ≤ n := by
      have := List.all_eq_true.mp hwf _ (List.get?_mem hop)
      simpa [opWF] using this
    simp only [pstep] at h
    rcases pstepDelete_facts s n hn s' h with
      ⟨hops, hq, hlen⟩ | ⟨hops, hq, hlen⟩ | ⟨m, hm0, hmn, hops, hq, hlen⟩
    · exact ⟨by rw [hops, hq, hlen], by rw [hops]; exact hwf⟩
    · refine ⟨?_, by rw [hops]; exact hwf⟩
      rw [hops, hq, hdrop]
      simp only [insTotal_cons, delTotal_cons, opInsLen, opDelLen]
      push_cast
      omega
    · refine ⟨?_, ?_⟩
      · rw [hops, hq, set_drop_q hqlt, hdrop]
        simp only [insTotal_cons, delTotal_cons, opInsLen, opDelLen]
        push_cast
        omega
      · rw [hops]
        refine all_set hwf ?_ s.q
        simp only [opWF, decide_eq_true_eq]
        omega
  | swap p attrs =>
    have := List.all_eq_true.mp hwf _ (List.get?_mem hop)
    simp [opWF] at this

/-- The applier loop, run on a well-formed operation list to normal
completion (not through the break), changes the total delta length by
exactly the remaining insert length minus the remaining delete count. -/
lemma processLoop_false_len : ∀ (fuel : Nat) (s : PState), s.ops.all opWF = true →
    ∀ out, processLoop fuel s = some (false, out) →
    (sumLen out : Int)
      = (sumLen s.delta : Int) + (insTotal (s.ops.drop s.q) : Int)
        - delTotal (s.ops.drop s.q) := by
  intro fuel
  induction fuel with
  | zero => intro s _ out h; simp [processLoop] at h
  | succ n ih =>
    intro s hwf out h
    cases hop : s.ops.get? s.q with
    | none =>
      simp only [processLoop, hop] at h
      have hnil : s.ops.drop s.q = [] :=
        List.drop_eq_nil_iff.mpr (List.get?_eq_none.mp hop)
      rw [hnil]
      simp only [Option.some.injEq, Prod.mk.injEq] at h
      rw [← h.2]
      simp [insTotal_nil, delTotal_nil]
    | some op =>
      simp only [processLoop, hop] at h
      cases hstep : pstep s op with
      | stop d =>
        rw [hstep] at h
        simp at h
      | next s2 =>
        rw [hstep] at h
        obtain ⟨heq, hwf2⟩ := pstep_inv s op hop hwf s2 hstep
        have hout := ih s2 hwf2 out h
        omega

/-- C4 amended: a committed operation list of retains, inserts and
deletes with counts at least 1 (the counterexample shows a Swap of
length L contributes L minus 1, not 0), applied by the applier to normal
completion (the delta is never exhausted mid-delete), satisfies
postLength equal to preLength plus the inserted length minus the deleted
count. -/
theorem c4_amended (ops : List Operation) (delta : List Delta) (fuel : Nat)
    (out : List Delta) (hwf : ops.all opWF = true)
    (hrun : processOperations fuel ops delta = some (false, out)) :
    (sumLen out : Int) = (sumLen delta : Int) + (insTotal ops : Int) - delTotal ops := by
  have hmain := processLoop_false_len fuel (initState ops delta) hwf out hrun
  simpa [initState] using hmain

/-- Witness for the amended C4 at a concrete run: retain 1, insert xy,
delete 1 on the document abc gives length 4 = 3 + 2 - 1. -/
theorem c4_amended_witness :
    ([Operation.retain 1 none, .ins ⟨.str (strU "xy"), {}⟩, .delete 1].all opWF = true) ∧
    processOperations 20 [Operation.retain 1 none, .ins ⟨.str (strU "xy"), {}⟩, .delete 1]
        ([⟨.str (strU "abc"), {}⟩] : List Delta)
      = some (false, [⟨.str (strU "a"), {}⟩, ⟨.str (strU "y"), {}⟩, ⟨.str (strU "bc"), {}⟩]) ∧
    (sumLen [⟨.str (strU "a"), {}⟩, ⟨.str (strU "y"), {}⟩, ⟨.str (strU "bc"), {}⟩] : Int)
      = (sumLen [⟨.str (strU "abc"), {}⟩] : Int)
        + (insTotal [Operation.retain 1 none, .ins ⟨.str (strU "xy"), {}⟩, .delete 1] : Int)
        - delTotal [Operation.retain 1 none, .ins ⟨.str (strU "xy"), {}⟩, .delete 1] :=
  ⟨by decide, by decide,
   c4_amended [Operation.retain 1 none, .ins ⟨.str (strU "xy"), {}⟩, .delete 1]
     [⟨.str (strU "abc"), {}⟩] 20
     [⟨.str (strU "a"), {}⟩, ⟨.str (strU "y"), {}⟩, ⟨.str (strU "bc"), {}⟩]
     (by decide) (by decide)⟩

/-- The retain-with-attributes branch never breaks the loop. -/
lemma pstepRetainA_no_stop (s : PState) (a : Attributes) (d : List Delta) :
    pstepRetainA s a ≠ .stop d := by
  intro h
  rcases hd : s.delta.get? s.i with _ | ⟨ins, dattrs⟩
  · simp only [pstepRetainA, hd] at h
    cases h
  · cases ins <;> simp only [pstepRetainA, hd, Delta.len] at h <;>
      split at h <;> try split at h
    all_goals first
      | cases h
      | (split at h <;> try split at h) <;> cases h

/-- The insert branch never breaks the loop. -/
lemma pstepIns_no_stop (s : PState) (d0 : Delta) (d : List Delta) :
    pstepIns s d0 ≠ .stop d := by
  intro h
  rcases hd : s.delta.get? s.i with _ | ⟨ins, dattrs⟩
  · simp only [pstepIns, hd] at h
    cases h
  · cases ins <;> simp only [pstepIns, hd, Delta.len] at h <;>
      split at h <;> try split at h
    all_goals first
      | cases h
      | (split at h <;> try split at h) <;> cases h

/-- A step at a retain or insert operation never breaks the loop and
never touches the operation list. -/
lemma pstep_ri (s : PState) (op : Operation) (hri : riOnly op = true) :
    (∀ d, pstep s op ≠ .stop d) ∧ (∀ s', pstep s op = .next s' → s'.ops = s.ops) := by
  cases op with
  | retain n attrs =>
    cases attrs with
    | none =>
      constructor
      · intro d h; simp only [pstep] at h; cases h
      · intro s' h; simp only [pstep] at h; cases h; rfl
    | some a =>
      constructor
      · intro d h; simp only [pstep] at h; exact pstepRetainA_no_stop _ a d h
      · intro s' h
        simp only [pstep] at h
        have h2 := (pstepRetainA_facts _ a s' h).2.1
        rw [h2]
        split <;> rfl
  | ins d0 =>
    constructor
    · intro d h; simp only [pstep] at h; exact pstepIns_no_stop s d0 d h
    · intro s' h; simp only [pstep] at h; exact (pstepIns_facts s d0 s' h).1
  | delete n => simp [riOnly] at hri
  | swap p attrs => simp [riOnly] at hri

/-- On a retain-and-insert-only operation list the applier never ends
through the break. -/
lemma processLoop_ri : ∀ (fuel : Nat) (s : PState), s.ops.all riOnly = true →
    ∀ br out, processLoop fuel s = some (br, out) → br = false := by
  intro fuel
  induction fuel with
  | zero => intro s _ br out h; simp [processLoop] at h
  | succ n ih =>
    intro s hri br out h
    cases hop : s.ops.get? s.q with
    | none =>
      simp only [processLoop, hop] at h
      simp only [Option.some.injEq, Prod.mk.injEq] at h
      exact h.1.symm
    | some op =>
      simp only [processLoop, hop] at h
      have hops := List.all_eq_true.mp hri _ (List.get?_mem hop)
      cases hstep : pstep s op with
      | stop d =>
        exact absurd hstep ((pstep_ri s op hops).1 d)
      | next s2 =>
        rw [hstep] at h
        have hsame := (pstep_ri s op hops).2 s2 hstep
        exact ih s2 (by rw [hsame]; exact hri) br out h

/-- Retains and inserts have no delete count. -/
lemma riOnly_delTotal : ∀ (ops : List Operation), ops.all riOnly = true →
    delTotal ops = 0 := by
  intro ops
  induction ops with
  | nil => intro _; rfl
  | cons op rest ih =>
    intro h
    have h' : riOnly op = true ∧ rest.all riOnly = true := by
      simpa [List.all_cons] using h
    rw [delTotal_cons, ih h'.2]
    cases op with
    | delete n => simp [riOnly] at h'
    | swap p a => simp [riOnly] at h'
    | retain n a => simp [opDelLen]
    | ins d => simp [opDelLen]

/-- Retains and inserts satisfy the well-formedness used by the length
invariant. -/
lemma riOnly_wf (ops : List Operation) (h : ops.all riOnly = true) :
    ops.all opWF = true := by
  rw [List.all_eq_true] at h ⊢
  intro o ho
  have := h o ho
  cases o with
  | delete n => simp [riOnly] at this
  | swap p a => simp [riOnly] at this
  | retain n a => simp [opWF]
  | ins d => simp [opWF]

/-- Retains and inserts are delete free. -/
lemma riOnly_deleteFree (ops : List Operation) (h : ops.all riOnly = true) :
    ops.all deleteFree = true := by
  rw [List.all_eq_true] at h ⊢
  intro o ho
  have := h o ho
  cases o with
  | delete n => simp [riOnly] at this
  | swap p a => simp [deleteFree]
  | retain n a => simp [deleteFree]
  | ins d => simp [deleteFree]

/-- On a delete-free operation list the remap loop increases the position
by at most the total inserted length. -/
lemma remapLoop_le : ∀ (ops : List Operation), ops.all deleteFree = true →
    ∀ c pos : Int, remapLoop ops c pos ≤ pos + (insTotal ops : Int) := by
  intro ops
  induction ops with
  | nil => intro _ c pos; simp [remapLoop, insTotal_nil]
  | cons op rest ih =>
    intro hall c pos
    have hall' : deleteFree op = true ∧ rest.all deleteFree = true := by
      simpa [List.all_cons] using hall
    have hnn : (0 : Int) ≤ (insTotal rest : Int) := Int.ofNat_nonneg _
    match op with
    | .delete n => simp [deleteFree] at hall'
    | .retain n a =>
      rw [remapLoop, insTotal_cons]
      split
      · simp only [opInsLen]; push_cast; omega
      · have := ih hall'.2 (c + n) pos
        simp only [opInsLen]; push_cast; omega
    | .swap p a =>
      rw [remapLoop, insTotal_cons]
      split
      · simp only [opInsLen]; push_cast; omega
      · have := ih hall'.2 c pos
        simp only [opInsLen]; push_cast; omega
    | .ins d =>
      rw [remapLoop, insTotal_cons]
      split
      · split
        · simp only [opInsLen]; push_cast; omega
        · have := ih hall'.2 (c + (d.len : Int)) (pos + (d.len : Int))
          simp only [opInsLen]
          push_cast
          omega
      · split
        · simp only [opInsLen]; push_cast; omega
        · have := ih hall'.2 c pos
          simp only [opInsLen]
          push_cast
          omega

/-- C2 amended: for a committed operation list of retains and inserts
only (the counterexample shows a delete can push a selection offset
inside the deleted span below 0), every pre-commit offset between 0 and
the pre-commit length remaps to at least 0, and, for a transaction that
did not set hasBlockAtFront, to at most the post-commit length. -/
theorem c2_amended (ops : List Operation) (delta : List Delta) (fuel : Nat)
    (br : Bool) (out : List Delta) (pos : Int) (hbf : Bool)
    (hri : ops.all riOnly = true) (h0 : 0 ≤ pos) (hpre : pos ≤ (sumLen delta : Int))
    (hrun : processOperations fuel ops delta = some (br, out)) :
    0 ≤ selectionFromTransaction ops hbf pos ∧
    (hbf = false → selectionFromTransaction ops false pos ≤ (sumLen out : Int)) := by
  have hdf : ops.all deleteFree = true := riOnly_deleteFree ops hri
  have hge := remapLoop_ge ops hdf 0 pos
  have hle := remapLoop_le ops hdf 0 pos
  have hbr : br = false := processLoop_ri fuel (initState ops delta) hri br out hrun
  subst hbr
  have hlen := c4_amended ops delta fuel out (riOnly_wf ops hri) hrun
  have hdt : delTotal ops = 0 := riOnly_delTotal ops hri
  constructor
  · simp only [selectionFromTransaction]
    split <;> omega
  · intro hb
    subst hb
    simp only [selectionFromTransaction, Bool.false_eq_true, and_false, if_false]
    omega

/-- Witness for the amended C2 at a concrete retain-and-insert run. -/
theorem c2_amended_witness :
    ([Operation.retain 1 none, .ins ⟨.str (strU "xy"), {}⟩].all riOnly = true) ∧
    (0 : Int) ≤ 2 ∧ (2 : Int) ≤ (sumLen [⟨.str (strU "abc"), ({} : Attributes)⟩] : Int) ∧
    processOperations 20 [Operation.retain 1 none, .ins ⟨.str (strU "xy"), {}⟩]
        ([⟨.str (strU "abc"), {}⟩] : List Delta)
      = some (false, [⟨.str (strU "a"), {}⟩, ⟨.str (strU "xy"), {}⟩, ⟨.str (strU "bc"), {}⟩]) ∧
    (0 ≤ selectionFromTransaction [Operation.retain 1 none, .ins ⟨.str (strU "xy"), {}⟩] false 2 ∧
     (false = false →
       selectionFromTransaction [Operation.retain 1 none, .ins ⟨.str (strU "xy"), {}⟩] false 2
         ≤ (sumLen [⟨.str (strU "a"), {}⟩, ⟨.str (strU "xy"), {}⟩, ⟨.str (strU "bc"), {}⟩] : Int))) :=
  ⟨by decide, by decide, by decide, by decide,
   c2_amended [Operation.retain 1 none, .ins ⟨.str (strU "xy"), {}⟩]
     [⟨.str (strU "abc"), {}⟩] 20 false
     [⟨.str (strU "a"), {}⟩, ⟨.str (strU "xy"), {}⟩, ⟨.str (strU "bc"), {}⟩] 2 false
     (by decide) (by decide) (by decide) (by decide)⟩

lemma sumLen_take_succ {l : List Delta} {i : Nat} {d : Delta} (h : l.get? i = some d) :
    sumLen (l.take (i + 1)) = sumLen (l.take i) + d.len := by
  rw [List.take_succ, ← List.get?_eq_getElem?, h]
  simp [sumLen_append, sumLen_cons, sumLen_nil, Option.toList]

/-- A delete whose cursor already sits at or past the end of the document
falls through every remaining delta entry and then breaks, leaving the
delta unchanged; the rest of the operation list is discarded by the
break. -/
lemma past_end_run_delete : ∀ (m : Nat) (s : PState) (n : Int),
    s.ops.get? s.q = some (.delete n) →
    s.dPos = (sumLen (s.delta.take s.i) : Int) →
    s.delta.length ≤ s.i + m →
    (sumLen s.delta : Int) ≤ s.cursor →
    ∀ fuel, m + 1 ≤ fuel → processLoop fuel s = some (true, s.delta) := by
  intro m
  induction m with
  | zero =>
    intro s n hop hdpos hlen hcur fuel hfuel
    obtain ⟨fuel', rfl⟩ : ∃ k, fuel = k + 1 := ⟨fuel - 1, by omega⟩
    have hnone : s.delta.get? s.i = none := List.get?_eq_none.mpr (by omega)
    simp only [processLoop, hop, pstep, pstepDelete, hnone]
  | succ m ih =>
    intro s n hop hdpos hlen hcur fuel hfuel
    by_cases hcase : s.delta.length ≤ s.i
    · obtain ⟨fuel', rfl⟩ : ∃ k, fuel = k + 1 := ⟨fuel - 1, by omega⟩
      have hnone : s.delta.get? s.i = none := List.get?_eq_none.mpr hcase
      simp only [processLoop, hop, pstep, pstepDelete, hnone]
    · have hi : s.i < s.delta.length := by omega
      obtain ⟨d, hd⟩ : ∃ d, s.delta.get? s.i = some d :=
        ⟨s.delta.get ⟨s.i, hi⟩, List.get?_eq_get hi⟩
      have hdec := sumLen_decomp hd
      have hge : s.cursor ≥ s.dPos + (d.len : Int) := by
        rw [hdpos]; omega
      obtain ⟨fuel', rfl⟩ : ∃ k, fuel = k + 1 := ⟨fuel - 1, by omega⟩
      have hfall : pstepDelete s n
          = .next { s with dPos := s.dPos + (d.len : Int), i := s.i + 1 } := by
        simp only [pstepDelete, hd]
        rw [if_pos hge]
      simp only [processLoop, hop, pstep, hfall]
      have hdpos' : s.dPos + (d.len : Int) = (sumLen (s.delta.take (s.i + 1)) : Int) := by
        rw [hdpos, sumLen_take_succ hd]; push_cast; ring
      have hlen' : s.delta.length ≤ (s.i + 1) + m := by omega
      exact ih { s with dPos := s.dPos + (d.len : Int), i := s.i + 1 } n hop
        hdpos' hlen' hcur fuel' (by omega)

/-- An insert whose cursor already sits at or past the end of the
document falls through every remaining delta entry and is then pushed at
the end of the delta; with no operation after it the run completes
normally. -/
lemma past_end_run_ins : ∀ (m : Nat) (s : PState) (d0 : Delta),
    s.ops.get? s.q = some (.ins d0) →
    s.ops.get? (s.q + 1) = none →
    s.dPos = (sumLen (s.delta.take s.i) : Int) →
    s.delta.length ≤ s.i + m →
    (sumLen s.delta : Int) ≤ s.cursor →
    ∀ fuel, m + 2 ≤ fuel → processLoop fuel s = some (false, s.delta ++ [d0]) := by
  intro m
  induction m with
  | zero =>
    intro s d0 hop hop1 hdpos hlen hcur fuel hfuel
    obtain ⟨fuel', rfl⟩ : ∃ k, fuel = k + 1 := ⟨fuel - 1, by omega⟩
    have hnone : s.delta.get? s.i = none := List.get?_eq_none.mpr (by omega)
    simp only [processLoop, hop, pstep, pstepIns, hnone]
    obtain ⟨fuel'', rfl⟩ : ∃ k, fuel' = k + 1 := ⟨fuel' - 1, by omega⟩
    simp only [processLoop, hop1]
  | succ m ih =>
    intro s d0 hop hop1 hdpos hlen hcur fuel hfuel
    by_cases hcase : s.delta.length ≤ s.i
    · obtain ⟨fuel', rfl⟩ : ∃ k, fuel = k + 1 := ⟨fuel - 1, by omega⟩
      have hnone : s.delta.get? s.i = none := List.get?_eq_none.mpr hcase
      simp only [processLoop, hop, pstep, pstepIns, hnone]
      obtain ⟨fuel'', rfl⟩ : ∃ k, fuel' = k + 1 := ⟨fuel' - 1, by omega⟩
      simp only [processLoop, hop1]
    · have hi : s.i < s.delta.length := by omega
      obtain ⟨d, hd⟩ : ∃ d, s.delta.get? s.i = some d :=
        ⟨s.delta.get ⟨s.i, hi⟩, List.get?_eq_get hi⟩
      have hdec := sumLen_decomp hd
      have hge : s.cursor ≥ s.dPos + (d.len : Int) := by
        rw [hdpos]; omega
      obtain ⟨fuel', rfl⟩ : ∃ k, fuel = k + 1 := ⟨fuel - 1, by omega⟩
      have hfall : pstepIns s d0
          = .next { s with dPos := s.dPos + (d.len : Int), i := s.i + 1 } := by
        simp only [pstepIns, hd]
        rw [if_pos hge]
      simp only [processLoop, hop, pstep, hfall]
      have hdpos' : s.dPos + (d.len : Int) = (sumLen (s.delta.take (s.i + 1)) : Int) := by
        rw [hdpos, sumLen_take_succ hd]; push_cast; ring
      have hlen' : s.delta.length ≤ (s.i + 1) + m := by omega
      exact ih { s with dPos := s.dPos + (d.len : Int), i := s.i + 1 } d0 hop hop1
        hdpos' hlen' hcur fuel' (by omega)

/-- C8 amended: positions beyond the document length raise no error and
are clamped as follows.  A Delete reached with the cursor past
end-of-document falls through the applier loop and breaks, leaving the
delta unchanged and discarding the remaining operations; an Insert
reached past end-of-document is not dropped but appended at the end of
the document (the counterexample shows the delta is changed by an insert
whose position is out of range). -/
theorem c8_amended (delta : List Delta) (m n : Int) (rest : List Operation)
    (d0 : Delta) (fuel : Nat) (hm : (sumLen delta : Int) ≤ m)
    (hfuel : delta.length + 3 ≤ fuel) :
    processOperations fuel (.retain m none :: .delete n :: rest) delta
      = some (true, delta) ∧
    processOperations fuel [.retain m none, .ins d0] delta
      = some (false, delta ++ [d0]) := by
  obtain ⟨fuel', rfl⟩ : ∃ k, fuel = k + 1 := ⟨fuel - 1, by omega⟩
  constructor
  · show processLoop (fuel' + 1) (initState (.retain m none :: .delete n :: rest) delta)
      = some (true, delta)
    simp only [processLoop, initState, List.get?_cons_zero, pstep]
    refine past_end_run_delete delta.length _ n ?_ ?_ ?_ ?_ fuel' ?_
    · rfl
    · simp [sumLen]
    · simp
    · show (sumLen delta : Int) ≤ 0 + m
      omega
    · omega
  · show processLoop (fuel' + 1) (initState [.retain m none, .ins d0] delta)
      = some (false, delta ++ [d0])
    simp only [processLoop, initState, List.get?_cons_zero, pstep]
    refine past_end_run_ins delta.length _ d0 ?_ ?_ ?_ ?_ ?_ fuel' ?_
    · rfl
    · rfl
    · simp [sumLen]
    · simp
    · show (sumLen delta : Int) ≤ 0 + m
      omega
    · omega

/-- Witness for the amended C8 at a concrete out-of-range run. -/
theorem c8_amended_witness :
    ((sumLen [⟨.str (strU "ab"), ({} : Attributes)⟩] : Int) ≤ 5) ∧
    processOperations 10 [Operation.retain 5 none, .delete 7, .retain 9 none]
        ([⟨.str (strU "ab"), {}⟩] : List Delta)
      = some (true, [⟨.str (strU "ab"), {}⟩]) ∧
    processOperations 10 [Operation.retain 5 none, .ins ⟨.str (strU "c"), {}⟩]
        ([⟨.str (strU "ab"), {}⟩] : List Delta)
      = some (false, [⟨.str (strU "ab"), {}⟩] ++ [⟨.str (strU "c"), {}⟩]) := by
  refine ⟨by decide, ?_, ?_⟩
  · exact (c8_amended [⟨.str (strU "ab"), {}⟩] 5 7 [.retain 9 none]
      ⟨.str (strU "c"), {}⟩ 10 (by decide) (by decide)).1
  · exact (c8_amended [⟨.str (strU "ab"), {}⟩] 5 7 [.retain 9 none]
      ⟨.str (strU "c"), {}⟩ 10 (by decide) (by decide)).2

/-- The glyph scan never moves its position counter backwards. -/
lemma scanGlyphs_pos_le : ∀ (gs : List Str) (at0 pos : Int) (r : Option Str) (p : Int),
    scanGlyphs at0 pos gs = (r, p) → pos ≤ p := by
  intro gs
  induction gs with
  | nil => intro at0 pos r p h; simp [scanGlyphs] at h; omega
  | cons t ts ih =>
    intro at0 pos r p h
    rw [scanGlyphs] at h
    split at h
    · simp at h; omega
    · have := ih at0 (pos + t.length) r p h
      omega

/-- When the glyph scan returns a glyph, the requested position is the
position of the last code unit of that glyph; in particular, for a
nonnegative starting position, the glyph length is at most at0 + 1. -/
lemma scanGlyphs_some_le : ∀ (gs : List Str) (at0 pos : Int) (t : Str) (p : Int),
    scanGlyphs at0 pos gs = (some t, p) → 0 ≤ pos → (t.length : Int) - 1 ≤ at0 := by
  intro gs
  induction gs with
  | nil => intro at0 pos t p h _; simp [scanGlyphs] at h
  | cons u us ih =>
    intro at0 pos t p h hpos
    rw [scanGlyphs] at h
    split at h
    · rename_i heq
      simp only [Prod.mk.injEq, Option.some.injEq] at h
      rw [← h.1]
      omega
    · exact ih at0 (pos + u.length) t p h (by omega)

/-- When fetchAt starting at a nonnegative position returns a string
grapheme, its code-unit length is at most at0 + 1: the grapheme occupies
the span of positions ending at at0. -/
lemma fetchAtAux_str_le : ∀ (delta : List Delta) (g : GlyphFn) (at0 pos : Int) (t : Str),
    fetchAtAux g at0 pos delta = some (.str t) → 0 ≤ pos → (t.length : Int) - 1 ≤ at0 := by
  intro delta
  induction delta with
  | nil => intro g at0 pos t h _; simp [fetchAtAux] at h
  | cons d rest ih =>
    intro g at0 pos t h hpos
    rw [fetchAtAux] at h
    split at h
    · rename_i s0 heq
      split at h
      · exact ih g at0 _ t h (by omega)
      · split at h
        · rename_i u p hscan
          simp only [Option.some.injEq, DeltaType.str.injEq] at h
          rw [← h]
          exact scanGlyphs_some_le (g s0) at0 pos u p hscan hpos
        · rename_i u p hscan
          have := scanGlyphs_pos_le (g s0) at0 pos _ p hscan
          exact ih g at0 p t h (by omega)
    · rename_i b heq
      split at h
      · simp at h
      · exact ih g at0 (pos + 1) t h (by omega)

/-- C5: grapheme-aware backspace.  On a collapsed selection, delete(1)
inspects the unit left of the cursor through fetchAt; when that unit is a
string grapheme of code-unit length L at least 1, the transaction emits a
deletion of L code units ending at cursor - L (a retain to cursor - L
when that is positive, then Delete L); for n greater than 1 in range,
delete(n) emits Delete n exactly, with no grapheme extension. -/
theorem c5_backspace (g : GlyphFn) (tr : Transaction)
    (hcol : isCollapsedX tr.sel = true) :
    (∀ t : Str, fetchAt g (tr.cursor - 1) tr.delta = some (.str t) → 1 ≤ t.length →
      0 < tr.cursor →
      Transaction.deleteN g 1 tr = some { tr with
        cursor := tr.cursor - (t.length : Int),
        ops := (if 0 < tr.cursor - (t.length : Int) then
                  tr.ops ++ [.retain (tr.cursor - (t.length : Int)) none] else tr.ops)
               ++ [.delete (t.length : Int)] }) ∧
    (∀ n : Int, 1 < n → n ≤ tr.cursor →
      Transaction.deleteN g n tr = some { tr with
        cursor := tr.cursor - n,
        ops := (if 0 < tr.cursor - n then
                  tr.ops ++ [.retain (tr.cursor - n) none] else tr.ops)
               ++ [.delete n] }) := by
  constructor
  · intro t hfetch hlen hcur
    have hle : (t.length : Int) - 1 ≤ tr.cursor - 1 :=
      fetchAtAux_str_le tr.delta g (tr.cursor - 1) 0 t hfetch le_rfl
    simp only [Transaction.deleteN, Transaction.deleteIfNeeded, hcol, if_pos,
      Transaction.deleteAt, Transaction.retainIfNeeded, Transaction.retainN]
    rw [if_pos (by norm_num : (-1 : Int) < 1)]
    simp only [if_true, Option.some_bind, hfetch]
    rw [if_pos hcur, if_pos (by omega : tr.cursor - (t.length : Int) ≤ tr.cursor),
      if_pos (by omega : (0 : Int) ≤ tr.cursor - (t.length : Int) - 0)]
    have hne : (t.length : Int) ≠ 0 := by omega
    simp only [Bool.false_eq_true, if_false, Option.map_some', if_pos hne,
      sub_zero, zero_add]
  · intro n h1 h2
    simp only [Transaction.deleteN, Transaction.deleteIfNeeded, hcol, if_pos,
      Transaction.deleteAt, Transaction.retainIfNeeded, Transaction.retainN]
    rw [if_pos (by omega : (-1 : Int) < n)]
    simp only [Option.some_bind]
    rw [if_neg (by omega : ¬ n = 1)]
    rw [if_pos (by omega : (0 : Int) < tr.cursor),
      if_pos (by omega : tr.cursor - n ≤ tr.cursor),
      if_pos (by omega : (0 : Int) ≤ tr.cursor - n - 0)]
    have hne : n ≠ 0 := by omega
    simp only [Bool.false_eq_true, if_false, Option.map_some', if_pos hne,
      sub_zero, zero_add]

/-- Witness for C5 at a concrete document: one grapheme of two code
units, cursor after it; delete(1) emits Delete 2, and delete(2) also
emits Delete 2 without consulting the segmenter. -/
theorem c5_backspace_witness :
    isCollapsedX (createTransaction c5doc).sel = true ∧
    fetchAt glyphsFam ((createTransaction c5doc).cursor - 1) (createTransaction c5doc).delta
      = some (.str famG) ∧
    1 ≤ famG.length ∧ 0 < (createTransaction c5doc).cursor ∧
    Transaction.deleteN glyphsFam 1 (createTransaction c5doc)
      = some { (createTransaction c5doc) with
          cursor := (createTransaction c5doc).cursor - (famG.length : Int),
          ops := (if 0 < (createTransaction c5doc).cursor - (famG.length : Int) then
                    (createTransaction c5doc).ops
                      ++ [.retain ((createTransaction c5doc).cursor - (famG.length : Int)) none]
                  else (createTransaction c5doc).ops)
                 ++ [.delete (famG.length : Int)] } ∧
    Transaction.deleteN glyphsFam 2 (createTransaction c5doc)
      = some { (createTransaction c5doc) with
          cursor := (createTransaction c5doc).cursor - 2,
          ops := (if 0 < (createTransaction c5doc).cursor - 2 then
                    (createTransaction c5doc).ops
                      ++ [.retain ((createTransaction c5doc).cursor - 2) none]
                  else (createTransaction c5doc).ops)
                 ++ [.delete 2] } :=
  ⟨by decide, by decide, by decide, by decide,
   (c5_backspace glyphsFam (createTransaction c5doc) (by decide)).1 famG (by decide)
     (by decide) (by decide),
   (c5_backspace glyphsFam (createTransaction c5doc) (by decide)).2 2 (by decide) (by decide)⟩

/-- C9: transactSimulate operates on a clone and never mutates the
original document: all writes go to the freshly allocated cells, so the
attribute, delta and selection cells of the original document are
unchanged, and the returned document is backed by different cells. -/
theorem c9_simulate_frame (fuel : Nat) (st : Store) (t : TextRef)
    (fn : Transaction → Transaction × Option Bool)
    (ha : t.aRef < st.attrsH.length) (hd : t.dRef < st.deltaH.length)
    (hs : t.sRef < st.selH.length) :
    ((transactSimulate fuel st t fn).1.readA t.aRef = st.readA t.aRef) ∧
    ((transactSimulate fuel st t fn).1.readD t.dRef = st.readD t.dRef) ∧
    ((transactSimulate fuel st t fn).1.readS t.sRef = st.readS t.sRef) ∧
    (transactSimulate fuel st t fn).2.aRef ≠ t.aRef ∧
    (transactSimulate fuel st t fn).2.dRef ≠ t.dRef ∧
    (transactSimulate fuel st t fn).2.sRef ≠ t.sRef := by
  refine ⟨?_, ?_, ?_, ?_, ?_, ?_⟩
  · simp only [transactSimulate, Store.readA]
    exact List.getD_append _ _ _ _ ha
  · simp only [transactSimulate, Store.readD]
    exact List.getD_append _ _ _ _ hd
  · simp only [transactSimulate, Store.readS]
    exact List.getD_append _ _ _ _ hs
  · simp only [transactSimulate]
    omega
  · simp only [transactSimulate]
    omega
  · simp only [transactSimulate]
    omega

/-- Witness for C9: a one-document store; simulating an insert leaves
the original cells untouched. -/
theorem c9_simulate_frame_witness :
    (0 < (⟨[{}], [[⟨.str (strU "hi"), {}⟩]], [⟨0, 0⟩]⟩ : Store).attrsH.length) ∧
    (0 < (⟨[{}], [[⟨.str (strU "hi"), {}⟩]], [⟨0, 0⟩]⟩ : Store).deltaH.length) ∧
    (0 < (⟨[{}], [[⟨.str (strU "hi"), {}⟩]], [⟨0, 0⟩]⟩ : Store).selH.length) ∧
    (((transactSimulate 10 ⟨[{}], [[⟨.str (strU "hi"), {}⟩]], [⟨0, 0⟩]⟩ ⟨0, 0, 0⟩
        (fun tr => ((tr.insert (strU "A") none).getD tr, none))).1.readD 0
      = (⟨[{}], [[⟨.str (strU "hi"), {}⟩]], [⟨0, 0⟩]⟩ : Store).readD 0) ∧
     (transactSimulate 10 ⟨[{}], [[⟨.str (strU "hi"), {}⟩]], [⟨0, 0⟩]⟩ ⟨0, 0, 0⟩
        (fun tr => ((tr.insert (strU "A") none).getD tr, none))).2.dRef ≠ 0) :=
  ⟨by decide, by decide, by decide,
   (c9_simulate_frame 10 ⟨[{}], [[⟨.str (strU "hi"), {}⟩]], [⟨0, 0⟩]⟩ ⟨0, 0, 0⟩
      (fun tr => ((tr.insert (strU "A") none).getD tr, none))
      (by decide) (by decide) (by decide)).2.1,
   (c9_simulate_frame 10 ⟨[{}], [[⟨.str (strU "hi"), {}⟩]], [⟨0, 0⟩]⟩ ⟨0, 0, 0⟩
      (fun tr => ((tr.insert (strU "A") none).getD tr, none))
      (by decide) (by decide) (by decide)).2.2.2.2.1⟩

/-- The inner glyph scan agrees with the reference scan run over the
glyphs of the entry followed by the remaining segments. -/
lemma scanGlyphs_eq_fetchSegs (at0 : Int) (rest : List DeltaType) :
    ∀ (gs : List Str) (pos : Int),
      (match scanGlyphs at0 pos gs with
       | (some t, _) => some (DeltaType.str t)
       | (none, p) => fetchSegs at0 p rest)
      = fetchSegs at0 pos (gs.map DeltaType.str ++ rest) := by
  intro gs
  induction gs with
  | nil => intro pos; simp [scanGlyphs]
  | cons u us ih =>
    intro pos
    rw [scanGlyphs]
    simp only [List.map_cons, List.cons_append, fetchSegs]
    by_cases hcond : pos + (u.length : Int) - 1 = at0
    · rw [if_pos hcond, if_pos hcond]
    · rw [if_neg hcond, if_neg hcond]
      exact ih (pos + u.length)

/-- Glyphs wholly before the requested position never match the
reference scan: skipping them advances the position by their total
length. -/
lemma fetchSegs_skip_strs (at0 : Int) (rest : List DeltaType) :
    ∀ (gs : List Str) (pos : Int), pos + (glyphsLenSum gs : Int) ≤ at0 →
      fetchSegs at0 pos (gs.map DeltaType.str ++ rest)
        = fetchSegs at0 (pos + (glyphsLenSum gs : Int)) rest := by
  intro gs
  induction gs with
  | nil => intro pos h; simp [glyphsLenSum]
  | cons u us ih =>
    intro pos h
    have hsum : glyphsLenSum (u :: us) = u.length + glyphsLenSum us := by
      simp [glyphsLenSum]
    simp only [List.map_cons, List.cons_append, fetchSegs, List.append_eq]
    rw [if_neg (by omega)]
    rw [ih (pos + u.length) (by omega)]
    congr 1
    omega

/-- Under the segmentation contract, fetchAt agrees with the reference
scan over the flattened segments. -/
lemma fetchAtAux_eq_fetchSegs (g : GlyphFn) (hg : GlyphsOk g) (at0 : Int) :
    ∀ (delta : List Delta) (pos : Int),
      fetchAtAux g at0 pos delta = fetchSegs at0 pos (flatSegs g delta) := by
  intro delta
  induction delta with
  | nil => intro pos; simp [fetchAtAux, flatSegs, fetchSegs]
  | cons d rest ih =>
    intro pos
    rcases d with ⟨ins, dattrs⟩
    cases ins with
    | str s =>
      have hflat : flatSegs g (⟨.str s, dattrs⟩ :: rest)
          = (g s).map DeltaType.str ++ flatSegs g rest := by
        simp [flatSegs]
      have hglen : glyphsLenSum (g s) = s.length := by
        have := hg.1 s
        calc glyphsLenSum (g s) = (g s).flatten.length := by
              rw [List.length_flatten]; rfl
          _ = s.length := by rw [this]
      simp only [fetchAtAux, hflat]
      split
      · rename_i hskip
        rw [ih (pos + s.length),
          fetchSegs_skip_strs at0 (flatSegs g rest) (g s) pos (by omega)]
        congr 1
        omega
      · rw [← scanGlyphs_eq_fetchSegs at0 (flatSegs g rest) (g s) pos]
        rcases hscan : scanGlyphs at0 pos (g s) with ⟨r, p⟩
        cases r with
        | none => exact ih p
        | some t => rfl
    | block b =>
      have hflat : flatSegs g (⟨.block b, dattrs⟩ :: rest)
          = .block b :: flatSegs g rest := by
        simp [flatSegs]
      simp only [fetchAtAux, hflat, fetchSegs]
      split
      · rfl
      · exact ih (pos + 1)

lemma segLenSum_nil : segLenSum [] = 0 := rfl

lemma segLenSum_cons (x : DeltaType) (l : List DeltaType) :
    segLenSum (x :: l) = segLen x + segLenSum l := by simp [segLenSum]

lemma segLenSum_append (l1 l2 : List DeltaType) :
    segLenSum (l1 ++ l2) = segLenSum l1 + segLenSum l2 := by simp [segLenSum]

/-- Past the total length of the segments the reference scan finds
nothing. -/
lemma fetchSegs_none_ge (at0 : Int) : ∀ (segs : List DeltaType) (pos : Int),
    pos + (segLenSum segs : Int) ≤ at0 → fetchSegs at0 pos segs = none := by
  intro segs
  induction segs with
  | nil => intro pos _; rfl
  | cons x rest ih =>
    intro pos h
    rw [segLenSum_cons] at h
    cases x with
    | str t =>
      have hl : segLen (.str t) = t.length := rfl
      rw [fetchSegs, if_neg (by rw [hl] at h; push_cast at h ⊢; omega)]
      exact ih (pos + t.length) (by rw [hl] at h; push_cast at h ⊢; omega)
    | block b =>
      have hl : segLen (.block b) = 1 := rfl
      rw [fetchSegs, if_neg (by rw [hl] at h; push_cast at h ⊢; omega)]
      exact ih (pos + 1) (by rw [hl] at h; push_cast at h ⊢; omega)

/-- Strictly before the current position the reference scan finds
nothing, provided no segment is empty. -/
lemma fetchSegs_none_lt (at0 : Int) : ∀ (segs : List DeltaType) (pos : Int),
    (∀ x ∈ segs, 1 ≤ segLen x) → at0 < pos → fetchSegs at0 pos segs = none := by
  intro segs
  induction segs with
  | nil => intro pos _ _; rfl
  | cons x rest ih =>
    intro pos hwf h
    have hx : 1 ≤ segLen x := hwf x (by simp)
    have hrest : ∀ y ∈ rest, 1 ≤ segLen y := fun y hy => hwf y (by simp [hy])
    cases x with
    | str t =>
      have hl : 1 ≤ t.length := by simpa [segLen] using hx
      rw [fetchSegs, if_neg (by omega)]
      exact ih (pos + t.length) hrest (by omega)
    | block b =>
      rw [fetchSegs, if_neg (by omega)]
      exact ih (pos + 1) hrest (by omega)

/-- When the reference scan returns a glyph, the segments decompose and
the requested position is the position of the last code unit of that
glyph. -/
lemma fetchSegs_str_decomp (at0 : Int) : ∀ (segs : List DeltaType) (pos : Int) (t : Str),
    fetchSegs at0 pos segs = some (.str t) →
    ∃ s1 s2, segs = s1 ++ .str t :: s2 ∧
      at0 = pos + (segLenSum s1 : Int) + t.length - 1 := by
  intro segs
  induction segs with
  | nil => intro pos t h; simp [fetchSegs] at h
  | cons x rest ih =>
    intro pos t h
    cases x with
    | str u =>
      rw [fetchSegs] at h
      split at h
      · rename_i heq
        simp only [Option.some.injEq, DeltaType.str.injEq] at h
        subst h
        exact ⟨[], rest, rfl, by rw [segLenSum_nil]; omega⟩
      · obtain ⟨s1, s2, hseg, hat⟩ := ih (pos + u.length) t h
        refine ⟨.str u :: s1, s2, by simp [hseg], ?_⟩
        rw [segLenSum_cons]
        simp only [segLen] at hat ⊢
        push_cast at hat ⊢
        omega
    | block b =>
      rw [fetchSegs] at h
      split at h
      · simp at h
      · obtain ⟨s1, s2, hseg, hat⟩ := ih (pos + 1) t h
        refine ⟨.block b :: s1, s2, by simp [hseg], ?_⟩
        rw [segLenSum_cons]
        simp only [segLen] at hat ⊢
        push_cast at hat ⊢
        omega

/-- When the reference scan returns a block, the segments decompose and
the requested position is the start position of that block. -/
lemma fetchSegs_block_decomp (at0 : Int) : ∀ (segs : List DeltaType) (pos : Int)
    (b : BlockType), fetchSegs at0 pos segs = some (.block b) →
    ∃ s1 s2, segs = s1 ++ .block b :: s2 ∧ at0 = pos + (segLenSum s1 : Int) := by
  intro segs
  induction segs with
  | nil => intro pos b h; simp [fetchSegs] at h
  | cons x rest ih =>
    intro pos b h
    cases x with
    | str u =>
      rw [fetchSegs] at h
      split at h
      · simp at h
      · obtain ⟨s1, s2, hseg, hat⟩ := ih (pos + u.length) b h
        refine ⟨.str u :: s1, s2, by simp [hseg], ?_⟩
        rw [segLenSum_cons]
        simp only [segLen] at hat ⊢
        push_cast at hat ⊢
        omega
    | block b' =>
      rw [fetchSegs] at h
      split at h
      · rename_i heq
        simp only [Option.some.injEq, DeltaType.block.injEq] at h
        subst h
        exact ⟨[], rest, rfl, by rw [segLenSum_nil]; omega⟩
      · obtain ⟨s1, s2, hseg, hat⟩ := ih (pos + 1) b h
        refine ⟨.block b' :: s1, s2, by simp [hseg], ?_⟩
        rw [segLenSum_cons]
        simp only [segLen] at hat ⊢
        push_cast at hat ⊢
        omega

/-- A block whose start position is the requested position is found by
the reference scan. -/
lemma fetchSegs_block_hit (at0 : Int) : ∀ (s1 : List DeltaType) (b : BlockType)
    (s2 : List DeltaType) (pos : Int), at0 = pos + (segLenSum s1 : Int) →
    fetchSegs at0 pos (s1 ++ .block b :: s2) = some (.block b) := by
  intro s1
  induction s1 with
  | nil =>
    intro b s2 pos h
    rw [segLenSum_nil] at h
    simp only [List.nil_append, fetchSegs]
    rw [if_pos (by omega)]
  | cons x rest ih =>
    intro b s2 pos h
    rw [segLenSum_cons] at h
    cases x with
    | str u =>
      have hl : segLen (.str u) = u.length := rfl
      rw [hl] at h
      simp only [List.cons_append, fetchSegs]
      rw [if_neg (by push_cast at h ⊢; omega)]
      exact ih b s2 (pos + u.length) (by push_cast at h ⊢; omega)
    | block b' =>
      have hl : segLen (.block b') = 1 := rfl
      rw [hl] at h
      simp only [List.cons_append, fetchSegs]
      rw [if_neg (by push_cast at h ⊢; omega)]
      exact ih b s2 (pos + 1) (by push_cast at h ⊢; omega)

/-- A position strictly inside a glyph but not at its last code unit is
found by nothing: the reference scan returns none, provided the segments
after the glyph are nonempty. -/
lemma fetchSegs_mid_none (at0 : Int) : ∀ (s1 : List DeltaType) (t : Str)
    (s2 : List DeltaType) (pos : Int), (∀ x ∈ s2, 1 ≤ segLen x) →
    pos + (segLenSum s1 : Int) ≤ at0 →
    at0 < pos + (segLenSum s1 : Int) + t.length - 1 →
    fetchSegs at0 pos (s1 ++ .str t :: s2) = none := by
  intro s1
  induction s1 with
  | nil =>
    intro t s2 pos hwf h1 h2
    rw [segLenSum_nil] at h1 h2
    simp only [List.nil_append, fetchSegs]
    rw [if_neg (by omega)]
    exact fetchSegs_none_lt at0 s2 (pos + t.length) hwf (by omega)
  | cons x rest ih =>
    intro t s2 pos hwf h1 h2
    rw [segLenSum_cons] at h1 h2
    cases x with
    | str u =>
      have hl : segLen (.str u) = u.length := rfl
      rw [hl] at h1 h2
      simp only [List.cons_append, fetchSegs]
      rw [if_neg (by push_cast at h1 ⊢; omega)]
      refine ih t s2 (pos + u.length) hwf ?_ ?_
      · push_cast at h1 ⊢; omega
      · push_cast at h2 ⊢; omega
    | block b =>
      have hl : segLen (.block b) = 1 := rfl
      rw [hl] at h1 h2
      simp only [List.cons_append, fetchSegs]
      rw [if_neg (by push_cast at h1 ⊢; omega)]
      refine ih t s2 (pos + 1) hwf ?_ ?_
      · push_cast at h1 ⊢; omega
      · push_cast at h2 ⊢; omega

/-- Decomposition of a flatMap around one element of its result. -/
lemma flatMap_decomp {α β : Type} (f : α → List β) :
    ∀ (l : List α) (a : List β) (x : β) (b : List β),
      l.flatMap f = a ++ x :: b →
      ∃ pre d post xs1 xs2, l = pre ++ d :: post ∧ f d = xs1 ++ x :: xs2 ∧
        a = pre.flatMap f ++ xs1 ∧ b = xs2 ++ post.flatMap f := by
  intro l
  induction l with
  | nil => intro a x b h; simp at h
  | cons hd tl ih =>
    intro a x b h
    rw [List.flatMap_cons] at h
    rcases List.append_eq_append_iff.mp h with ⟨w, hw1, hw2⟩ | ⟨w, hw1, hw2⟩
    · obtain ⟨pre, d, post, xs1, xs2, h1, h2, h3, h4⟩ := ih w x b hw2
      exact ⟨hd :: pre, d, post, xs1, xs2, by simp [h1], h2,
        by rw [hw1, h3, List.flatMap_cons, List.append_assoc], h4⟩
    · cases w with
      | nil =>
        simp only [List.append_nil] at hw1
        simp only [List.nil_append] at hw2
        obtain ⟨pre, d, post, xs1, xs2, h1, h2, h3, h4⟩ := ih [] x b hw2.symm
        refine ⟨hd :: pre, d, post, xs1, xs2, by simp [h1], h2, ?_, h4⟩
        have h5 : pre.flatMap f ++ xs1 = [] := h3.symm
        rw [List.append_eq_nil] at h5
        simp [List.flatMap_cons, h5.1, h5.2, ← hw1]
      | cons y w' =>
        obtain ⟨hy, hb⟩ : y = x ∧ b = w' ++ tl.flatMap f := by
          have := hw2
          simp only [List.cons_append] at this
          exact ⟨(List.cons.injEq _ _ _ _).mp this |>.1.symm,
            ((List.cons.injEq _ _ _ _).mp this).2⟩
        subst hy
        exact ⟨[], hd, tl, a, w', rfl, hw1, by simp, hb⟩

/-- Decomposition of a glyph list mapped into segments. -/
lemma map_str_decomp : ∀ (gs : List Str) (xs1 : List DeltaType) (t : Str)
    (xs2 : List DeltaType), gs.map DeltaType.str = xs1 ++ .str t :: xs2 →
    ∃ gs1 gs2, gs = gs1 ++ t :: gs2 ∧ xs1 = gs1.map DeltaType.str ∧
      xs2 = gs2.map DeltaType.str := by
  intro gs
  induction gs with
  | nil => intro xs1 t xs2 h; simp at h
  | cons u us ih =>
    intro xs1 t xs2 h
    rw [List.map_cons] at h
    cases xs1 with
    | nil =>
      simp only [List.nil_append] at h
      obtain ⟨h1, h2⟩ := (List.cons.injEq _ _ _ _).mp h
      obtain rfl : u = t := by
        cases h1
        rfl
      exact ⟨[], us, rfl, rfl, h2.symm⟩
    | cons v xs1' =>
      simp only [List.cons_append] at h
      obtain ⟨h1, h2⟩ := (List.cons.injEq _ _ _ _).mp h
      obtain ⟨gs1, gs2, hg1, hg2, hg3⟩ := ih xs1' t xs2 h2
      exact ⟨u :: gs1, gs2, by rw [hg1]; exact (List.cons_append _ _ _).symm,
        by rw [List.map_cons, ← h1, hg2], hg3⟩

/-- The segment length of mapped glyphs is their glyph length. -/
lemma segLenSum_map_str (gs : List Str) :
    segLenSum (gs.map DeltaType.str) = glyphsLenSum gs := by
  unfold segLenSum glyphsLenSum
  rw [List.map_map]
  rfl

/-- Under the segmentation contract the flattened segments of a document
have the total length of the document. -/
lemma segLenSum_flatSegs (g : GlyphFn) (hg : GlyphsOk g) :
    ∀ l : List Delta, segLenSum (flatSegs g l) = sumLen l := by
  intro l
  induction l with
  | nil => rfl
  | cons d rest ih =>
    rcases d with ⟨ins, a⟩
    cases ins with
    | str s =>
      have hglen : glyphsLenSum (g s) = s.length := by
        have hj := hg.1 s
        calc glyphsLenSum (g s) = (g s).flatten.length := by
              rw [List.length_flatten]; rfl
          _ = s.length := by rw [hj]
      have hflat : flatSegs g (⟨.str s, a⟩ :: rest)
          = (g s).map DeltaType.str ++ flatSegs g rest := by simp [flatSegs]
      rw [hflat, segLenSum_append, segLenSum_map_str, hglen, ih, sumLen_cons, Delta.len]
    | block b =>
      have hflat : flatSegs g (⟨.block b, a⟩ :: rest)
          = .block b :: flatSegs g rest := by simp [flatSegs]
      rw [hflat, segLenSum_cons, ih, sumLen_cons, Delta.len, segLen]

/-- Under the segmentation contract no flattened segment is empty. -/
lemma flatSegs_wf (g : GlyphFn) (hg : GlyphsOk g) (l : List Delta) :
    ∀ x ∈ flatSegs g l, 1 ≤ segLen x := by
  intro x hx
  rw [flatSegs, List.mem_flatMap] at hx
  obtain ⟨d, _, hxd⟩ := hx
  rcases d with ⟨ins, a⟩
  cases ins with
  | str s =>
    simp only [List.mem_map] at hxd
    obtain ⟨t, ht, rfl⟩ := hxd
    have := hg.2 s t ht
    have hpos : 0 < t.length := List.length_pos.mpr this
    simpa [segLen] using hpos
  | block b =>
    simp only [List.mem_singleton] at hxd
    subst hxd
    simp [segLen]

/-- C10: characterization of fetchAt under the segmentation contract.
A string result is always a grapheme of some text entry whose last code
unit sits exactly at the requested position (entry start plus preceding
grapheme lengths plus the grapheme length minus 1); a block entry is
returned exactly when the position is its start; a position strictly
inside a grapheme but not at its last unit yields null; and every
position at or past the document length yields null. -/
theorem c10_fetchAt (g : GlyphFn) (hg : GlyphsOk g) (at0 : Int) (delta : List Delta) :
    (∀ t : Str, fetchAt g at0 delta = some (.str t) →
       ∃ pre s a post gs1 gs2, delta = pre ++ ⟨.str s, a⟩ :: post ∧
         g s = gs1 ++ t :: gs2 ∧
         at0 = (sumLen pre : Int) + (glyphsLenSum gs1 : Int) + (t.length : Int) - 1) ∧
    (∀ b : BlockType, fetchAt g at0 delta = some (.block b) ↔
       ∃ pre a post, delta = pre ++ ⟨.block b, a⟩ :: post ∧ at0 = (sumLen pre : Int)) ∧
    (∀ pre s a post gs1 t gs2, delta = pre ++ ⟨.str s, a⟩ :: post →
       g s = gs1 ++ t :: gs2 →
       (sumLen pre : Int) + (glyphsLenSum gs1 : Int) ≤ at0 →
       at0 < (sumLen pre : Int) + (glyphsLenSum gs1 : Int) + (t.length : Int) - 1 →
       fetchAt g at0 delta = none) ∧
    ((sumLen delta : Int) ≤ at0 → fetchAt g at0 delta = none) := by
  have hmain : fetchAt g at0 delta = fetchSegs at0 0 (flatSegs g delta) :=
    fetchAtAux_eq_fetchSegs g hg at0 delta 0
  refine ⟨?_, ?_, ?_, ?_⟩
  · intro t h
    rw [hmain] at h
    obtain ⟨s1, s2, hseg, hat⟩ := fetchSegs_str_decomp at0 (flatSegs g delta) 0 t h
    obtain ⟨pre, d, post, xs1, xs2, hdelta, hfd, ha, hb⟩ :=
      flatMap_decomp _ delta s1 (.str t) s2 hseg
    rcases d with ⟨ins, a0⟩
    cases ins with
    | block b0 =>
      exfalso
      have hfd' : [DeltaType.block b0] = xs1 ++ .str t :: xs2 := hfd
      have hmem : DeltaType.str t ∈ [DeltaType.block b0] := by
        rw [hfd']
        exact List.mem_append_right _ (List.mem_cons_self _ _)
      simp at hmem
    | str s =>
      have hfd' : (g s).map DeltaType.str = xs1 ++ .str t :: xs2 := hfd
      obtain ⟨gs1, gs2, hgs, hxs1, hxs2⟩ := map_str_decomp (g s) xs1 t xs2 hfd'
      refine ⟨pre, s, a0, post, gs1, gs2, hdelta, hgs, ?_⟩
      have h1 : segLenSum (pre.flatMap fun d =>
          match d.insert with
          | .str s => (g s).map DeltaType.str
          | .block b => [DeltaType.block b]) = sumLen pre :=
        segLenSum_flatSegs g hg pre
      have h2 : segLenSum xs1 = glyphsLenSum gs1 := by
        rw [hxs1, segLenSum_map_str]
      have h3 : segLenSum s1 = sumLen pre + glyphsLenSum gs1 := by
        rw [ha, segLenSum_append, h1, h2]
      omega
  · intro b
    constructor
    · intro h
      rw [hmain] at h
      obtain ⟨s1, s2, hseg, hat⟩ := fetchSegs_block_decomp at0 (flatSegs g delta) 0 b h
      obtain ⟨pre, d, post, xs1, xs2, hdelta, hfd, ha, hb⟩ :=
        flatMap_decomp _ delta s1 (.block b) s2 hseg
      rcases d with ⟨ins, a0⟩
      cases ins with
      | str s =>
        exfalso
        have hfd' : (g s).map DeltaType.str = xs1 ++ .block b :: xs2 := hfd
        have hmem : DeltaType.block b ∈ (g s).map DeltaType.str := by
          rw [hfd']
          exact List.mem_append_right _ (List.mem_cons_self _ _)
        simp at hmem
      | block b0 =>
        have hfd' : [DeltaType.block b0] = xs1 ++ .block b :: xs2 := hfd
        have hlen := congrArg List.length hfd'
        simp only [List.length_append, List.length_cons, List.length_nil] at hlen
        obtain rfl : xs1 = [] := List.length_eq_zero.mp (by omega)
        simp only [List.nil_append, List.cons.injEq] at hfd'
        obtain rfl : b0 = b := by
          have := hfd'.1
          cases this
          rfl
        refine ⟨pre, a0, post, hdelta, ?_⟩
        have h1 : segLenSum (pre.flatMap fun d =>
            match d.insert with
            | .str s => (g s).map DeltaType.str
            | .block b => [DeltaType.block b]) = sumLen pre :=
          segLenSum_flatSegs g hg pre
        have h3 : segLenSum s1 = sumLen pre := by
          rw [ha, segLenSum_append, h1, segLenSum_nil]
          omega
        omega
    · rintro ⟨pre, a0, post, hdelta, hat⟩
      rw [hmain]
      subst hdelta
      have hflat : flatSegs g (pre ++ ⟨.block b, a0⟩ :: post)
          = flatSegs g pre ++ .block b :: flatSegs g post := by
        simp [flatSegs, List.flatMap_append, List.flatMap_cons]
      rw [hflat]
      exact fetchSegs_block_hit at0 (flatSegs g pre) b (flatSegs g post) 0
        (by rw [segLenSum_flatSegs g hg pre]; omega)
  · intro pre s a0 post gs1 t gs2 hdelta hgs h1 h2
    rw [hmain]
    subst hdelta
    have hflat : flatSegs g (pre ++ ⟨.str s, a0⟩ :: post)
        = (flatSegs g pre ++ gs1.map DeltaType.str)
          ++ .str t :: (gs2.map DeltaType.str ++ flatSegs g post) := by
      simp [flatSegs, List.flatMap_append, List.flatMap_cons, hgs]
    rw [hflat]
    refine fetchSegs_mid_none at0 _ t _ 0 ?_ ?_ ?_
    · intro x hx
      rcases List.mem_append.mp hx with hx | hx
      · obtain ⟨u, hu, rfl⟩ := List.mem_map.mp hx
        have hmem : u ∈ g s := by
          rw [hgs]
          exact List.mem_append_right _ (List.mem_cons_of_mem _ hu)
        have hne := hg.2 s u hmem
        simpa [segLen] using List.length_pos.mpr hne
      · exact flatSegs_wf g hg post x hx
    · rw [segLenSum_append, segLenSum_flatSegs g hg pre, segLenSum_map_str]
      omega
    · rw [segLenSum_append, segLenSum_flatSegs g hg pre, segLenSum_map_str]
      omega
  · intro h
    rw [hmain]
    exact fetchSegs_none_ge at0 (flatSegs g delta) 0
      (by rw [segLenSum_flatSegs g hg delta]; omega)

/-- Flattening the singleton decomposition of a string gives it back. -/
lemma flatten_map_singleton (s : Str) : (s.map fun c => [c]).flatten = s := by
  induction s with
  | nil => rfl
  | cons c cs ih => simp [ih]

/-- The demo segmenter satisfies the segmentation contract. -/
lemma glyphsOk_glyphsFam : GlyphsOk glyphsFam := by
  constructor
  · intro s
    by_cases hs : s = famG
    · subst hs
      rfl
    · simp only [glyphsFam, if_neg hs]
      exact flatten_map_singleton s
  · intro s t ht
    by_cases hs : s = famG
    · subst hs
      simp [glyphsFam] at ht
      subst ht
      decide
    · simp only [glyphsFam, if_neg hs, List.mem_map] at ht
      obtain ⟨c, hc, rfl⟩ := ht
      simp

/-- Witness for C10: at position 0 of a document starting with a paragraph
block the applier returns that block, and position 3 of the 3-unit document
[paragraph, famG] returns null. -/
theorem c10_fetchAt_witness :
    fetchAt glyphsFam 0 [⟨.block .paragraph, {}⟩, ⟨.str famG, {}⟩]
      = some (.block .paragraph) ∧
    fetchAt glyphsFam 3 [⟨.block .paragraph, {}⟩, ⟨.str famG, {}⟩] = none :=
  ⟨((c10_fetchAt glyphsFam glyphsOk_glyphsFam 0
       [⟨.block .paragraph, {}⟩, ⟨.str famG, {}⟩]).2.1 .paragraph).mpr
     ⟨[], {}, [⟨.str famG, {}⟩], rfl, by decide⟩,
   (c10_fetchAt glyphsFam glyphsOk_glyphsFam 3
       [⟨.block .paragraph, {}⟩, ⟨.str famG, {}⟩]).2.2.2 (by decide)⟩

end Cosmos
